import Mathlib

/-! # PGN-Optimizer: a shallow embedding of `index.go`

Go strings are modelled as lists of Unicode code points (`Str`); the input text is
taken to be valid UTF-8, so that the rune-level library functions used by the
program (`strings.TrimSpace`, `strings.Trim`, `strings.SplitN`, `regexp`) act on
characters.  Byte lengths, which matter for `bufio.Scanner`, are recovered with
`Char.utf8Size`.  Go `int` is the 64-bit signed integer.

A Go `map[string]string` is modelled as an association list with at most one entry
per key (`HeaderMap`): `get?` is the lookup, `set` the assignment `m[k] = v`,
`delete` the builtin `delete(m, k)`.  The order in which a `range` loop visits a map is
not fixed by Go: where the source ranges over a map (`RemoveEmptyHeaders`, `SavePGN`),
the order is a parameter of the definition, and the theorems hold for every order.
-/

namespace PGNOptimizer

/-- A Go string: a sequence of code points. -/
abbrev Str := List Char

/-! ## Library functions used by the program -/

/-- Go `unicode.IsSpace`: the Unicode `White_Space` property. -/
def isSpace (c : Char) : Bool :=
  let n := c.toNat
  (0x09 ≤ n && n ≤ 0x0D) || n == 0x20 || n == 0x85 || n == 0xA0 || n == 0x1680 ||
  (0x2000 ≤ n && n ≤ 0x200A) || n == 0x2028 || n == 0x2029 || n == 0x202F ||
  n == 0x205F || n == 0x3000

/-- Go `strings.TrimSpace`: leading and trailing white space removed. -/
def TrimSpace (s : Str) : Str :=
  (s.dropWhile isSpace).rdropWhile isSpace

/-- Go `strings.Trim(s, cutset)`: all leading and trailing characters that occur in
`cutset` removed. -/
def Trim (s : Str) (cutset : Str) : Str :=
  (s.dropWhile (fun c => cutset.contains c)).rdropWhile (fun c => cutset.contains c)

/-- Go `strings.HasPrefix(s, p)`. -/
def HasPrefix : Str → Str → Bool
  | _, [] => true
  | [], _ :: _ => false
  | c :: s, d :: p => c == d && HasPrefix s p

/-- Go `strings.SplitN(s, sep, 2)` for a one-character separator: the text before the
first separator and the text after it, or `s` alone when there is no separator. -/
def SplitN2 (s : Str) (sep : Char) : List Str :=
  if s.contains sep then
    [s.takeWhile (fun c => c != sep), (s.dropWhile (fun c => c != sep)).tail]
  else [s]

/-- Go `strings.Split(s, sep)[0]` for a one-character separator: the text before the
first separator (all of `s` when there is none). -/
def splitHead (s : Str) (sep : Char) : Str :=
  s.takeWhile (fun c => c != sep)

/-- The error kinds of `strconv.NumError`. -/
inductive NumError where
  | ErrSyntax
  | ErrRange
  deriving DecidableEq, Repr

/-- The digit loop of `strconv.ParseUint(s, 10, 64)`: the accumulated value, with
`ErrSyntax` at the first character that is not a decimal digit and `ErrRange` (value
`2^64 - 1`) as soon as the accumulated value leaves the unsigned 64-bit range. -/
def parseUintLoop : Nat → Str → Nat × Option NumError
  | n, [] => (n, none)
  | n, c :: cs =>
    if c.isDigit then
      if n * 10 + (c.toNat - 48) > 2 ^ 64 - 1 then (2 ^ 64 - 1, some NumError.ErrRange)
      else parseUintLoop (n * 10 + (c.toNat - 48)) cs
    else (0, some NumError.ErrSyntax)

/-- Go `strconv.Atoi` on a 64-bit platform: the value and the error (`none` for `nil`).
An optional sign is followed by one or more decimal digits; on a syntax error the
value is `0`, on a range error it is the nearest bound of `int`. -/
def Atoi (s : Str) : Int × Option NumError :=
  match s with
  | [] => (0, some NumError.ErrSyntax)
  | c :: cs =>
    let neg : Bool := c == '-'
    let body : Str := if c == '+' || c == '-' then cs else s
    if body.isEmpty then (0, some NumError.ErrSyntax)
    else
      match parseUintLoop 0 body with
      | (_, some NumError.ErrSyntax) => (0, some NumError.ErrSyntax)
      | (un, _) =>
        if !neg && decide (un ≥ 2 ^ 63) then (2 ^ 63 - 1, some NumError.ErrRange)
        else if neg && decide (un > 2 ^ 63) then (-(2 ^ 63), some NumError.ErrRange)
        else (if neg then -(un : Int) else (un : Int), none)

/-- Number of bytes of the UTF-8 encoding of a string. -/
def utf8Len (s : Str) : Nat :=
  (s.map Char.utf8Size).sum

/-- Go `bufio.MaxScanTokenSize`: the size to which the buffer of a `bufio.Scanner`
may grow. -/
def MaxScanTokenSize : Nat := 64 * 1024

/-- The lines of a text as `bufio.ScanLines` delimits them: each line ends at a
newline, which is not part of it; a last line without newline counts when it is not
empty. -/
def rawLines : Str → List Str
  | [] => []
  | c :: cs =>
    if c = '\n' then [] :: rawLines cs
    else
      match rawLines cs with
      | [] => [[c]]
      | l :: ls => (c :: l) :: ls

/-- The `dropCR` of `bufio.ScanLines`: one trailing carriage return removed. -/
def dropCR (s : Str) : Str :=
  if s.getLast? = some '\r' then s.dropLast else s

/-- The tokens that the loop `for scanner.Scan() { ... scanner.Text() ... }` sees for
a `bufio.NewScanner(strings.NewReader(content))`: the lines of the text, up to the
first line that does not fit in the scanner's buffer (`MaxScanTokenSize` bytes, the
line's own bytes without the newline).  At such a line `Scan` returns false with
`ErrTooLong`, and the loop ends. -/
def scanLines (content : Str) : List Str :=
  ((rawLines content).takeWhile (fun l => decide (utf8Len l < MaxScanTokenSize))).map dropCR

/-- Go `regexp.MustCompile("^[\\s?]*$").MatchString(v)`: every character of `v` is a
question mark or one of the characters of the class `\s`, which in Go's syntax is
tab, newline, form feed, carriage return and space. -/
def isBlankValue (v : Str) : Bool :=
  v.all (fun c => c == '?' || c == '\t' || c == '\n' || c == '\x0c' || c == '\r' || c == ' ')

/-- The scan behind `regexp.MustCompile("\\{[^}]*\\}").ReplaceAllString(s, "")`.  With
the flag `false` the scan is outside a match: a `{` that has a `}` somewhere after it
starts a match, any other character is copied.  With the flag `true` the scan is
inside a match, which ends at the first `}`; nothing is copied. -/
def stripFrom : Bool → Str → Str
  | _, [] => []
  | false, c :: cs =>
    if c = '{' ∧ '}' ∈ cs then stripFrom true cs else c :: stripFrom false cs
  | true, c :: cs =>
    if c = '}' then stripFrom false cs else stripFrom true cs

/-! ## The data model -/

/-- A Go `map[string]string`. -/
abbrev HeaderMap := List (Str × Str)

/-- The lookup `v, ok := m[k]`. -/
def HeaderMap.get? : HeaderMap → Str → Option Str
  | [], _ => none
  | (k', v) :: m, k => if k' = k then some v else HeaderMap.get? m k

/-- The assignment `m[k] = v`. -/
def HeaderMap.set : HeaderMap → Str → Str → HeaderMap
  | [], k, v => [(k, v)]
  | (k', v') :: m, k, v =>
    if k' = k then (k, v) :: m else (k', v') :: HeaderMap.set m k v

/-- The builtin `delete(m, k)`. -/
def HeaderMap.delete (m : HeaderMap) (k : Str) : HeaderMap :=
  m.filter (fun kv => decide (kv.1 ≠ k))

/-- The expression `m[k]`, which is the empty string for an absent key. -/
def HeaderMap.getD (m : HeaderMap) (k : Str) : Str :=
  (HeaderMap.get? m k).getD []

/-- The Go struct `Game`. -/
structure Game where
  Headers : HeaderMap
  Moves : Str
  deriving DecidableEq, Repr

/-! ## The program -/

/-- Go `RemoveCommentsFromMoves`. -/
def RemoveCommentsFromMoves (moves : Str) : Str :=
  stripFrom false moves

/-- The state of the loop of `ParsePGN`: the slice `games` and `currentGame`. -/
structure ParseState where
  games : List Game
  currentGame : Game
  deriving DecidableEq, Repr

/-- The empty game `Game{Headers: make(map[string]string)}`. -/
def newGame : Game := { Headers := [], Moves := [] }

/-- Lines 30-36 of `ParsePGN`: when the current game has moves, it is appended to
`games`, its comments removed first when `removeComments` is set, and a new game is
started. -/
def finalizeCurrent (removeComments : Bool) (st : ParseState) : ParseState :=
  if st.currentGame.Moves.length > 0 then
    { games := st.games ++
        [if removeComments then
          { st.currentGame with Moves := RemoveCommentsFromMoves st.currentGame.Moves }
         else st.currentGame],
      currentGame := newGame }
  else st

/-- Lines 37-41 of `ParsePGN`: the tag line without its brackets is split at the first
space; when that gives two parts, the second, without its quotes, is stored under the
first. -/
def addHeader (st : ParseState) (line : Str) : ParseState :=
  match SplitN2 (Trim line ['[', ']']) ' ' with
  | [name, value] =>
    { st with currentGame :=
        { st.currentGame with
          Headers := HeaderMap.set st.currentGame.Headers name (Trim value ['"']) } }
  | _ => st

/-- Line 43 of `ParsePGN`: the line and one space are appended to the moves. -/
def appendMoves (st : ParseState) (line : Str) : ParseState :=
  { st with currentGame :=
      { st.currentGame with Moves := st.currentGame.Moves ++ line ++ [' '] } }

/-- One iteration of the loop of `ParsePGN`, on the token `raw`. -/
def parseLine (removeComments : Bool) (st : ParseState) (raw : Str) : ParseState :=
  let line := TrimSpace raw
  if HasPrefix line ['['] then addHeader (finalizeCurrent removeComments st) line
  else if line ≠ [] then appendMoves st line
  else st

/-- The end of `ParsePGN`: the current game is appended when it has moves or headers. -/
def finishParse (st : ParseState) : List Game :=
  if st.currentGame.Moves.length > 0 ∨ st.currentGame.Headers.length > 0 then
    st.games ++ [st.currentGame]
  else st.games

/-- Go `ParsePGN`. -/
def ParsePGN (content : Str) (removeComments : Bool) : List Game :=
  finishParse
    ((scanLines content).foldl (parseLine removeComments)
      { games := [], currentGame := newGame })

/-- Go `RemoveGamesWithoutPlayers`: the slice that the function stores in `*games`. -/
def RemoveGamesWithoutPlayers : List Game → List Game
  | [] => []
  | game :: games =>
    let whitePlayer := HeaderMap.getD game.Headers "White".toList
    let hasWhite := (HeaderMap.get? game.Headers "White".toList).isSome
    let blackPlayer := HeaderMap.getD game.Headers "Black".toList
    let hasBlack := (HeaderMap.get? game.Headers "Black".toList).isSome
    if (!hasWhite && !hasBlack) || (isBlankValue whitePlayer && isBlankValue blackPlayer) then
      RemoveGamesWithoutPlayers games
    else game :: RemoveGamesWithoutPlayers games

/-- Go `FilterGamesByEloRange`. -/
def FilterGamesByEloRange (games : List Game) (eloBelow eloAbove : Int)
    (filterEloless : Bool) : List Game :=
  match games with
  | [] => []
  | game :: rest =>
    let eloStrWhite := HeaderMap.getD game.Headers "WhiteElo".toList
    let eloStrBlack := HeaderMap.getD game.Headers "BlackElo".toList
    let eloWhite := (Atoi eloStrWhite).1
    let errWhite := (Atoi eloStrWhite).2
    let eloBlack := (Atoi eloStrBlack).1
    let errBlack := (Atoi eloStrBlack).2
    if (filterEloless && (errWhite.isSome || errBlack.isSome)) ||
        (eloBelow != 0 && ((errWhite.isNone && decide (eloWhite < eloBelow)) ||
          (errBlack.isNone && decide (eloBlack < eloBelow)))) ||
        (eloAbove != 0 && ((errWhite.isNone && decide (eloWhite > eloAbove)) ||
          (errBlack.isNone && decide (eloBlack > eloAbove)))) then
      FilterGamesByEloRange rest eloBelow eloAbove filterEloless
    else game :: FilterGamesByEloRange rest eloBelow eloAbove filterEloless

/-- Go `extractYear`. -/
def extractYear (dateStr : Str) : Int × Option NumError :=
  Atoi (splitHead dateStr '.')

/-- Go `FilterGamesByYearRange`. -/
def FilterGamesByYearRange (games : List Game) (yearBefore yearAfter : Int)
    (filterYearless : Bool) : List Game :=
  match games with
  | [] => []
  | game :: rest =>
    let dateStr := HeaderMap.getD game.Headers "Date".toList
    let dateExists := (HeaderMap.get? game.Headers "Date".toList).isSome
    if !dateExists && filterYearless then
      FilterGamesByYearRange rest yearBefore yearAfter filterYearless
    else
      let yearExtracted := (extractYear dateStr).1
      let err := (extractYear dateStr).2
      if err.isSome && filterYearless then
        FilterGamesByYearRange rest yearBefore yearAfter filterYearless
      else if (yearBefore == 0 || decide (yearExtracted ≥ yearBefore)) &&
          (yearAfter == 0 || decide (yearExtracted ≤ yearAfter)) then
        game :: FilterGamesByYearRange rest yearBefore yearAfter filterYearless
      else FilterGamesByYearRange rest yearBefore yearAfter filterYearless

/-- Go `RemoveEmptyHeaders`, with `order` the entries of `game.Headers` in the order
in which the `range` loop yields them: the key of every entry with a blank value is
deleted from the map.  (Only the key of the current entry is deleted, so the loop
visits every entry of the map once.) -/
def RemoveEmptyHeadersIn (order : List (Str × Str)) (game : Game) : Game :=
  { game with
    Headers := order.foldl
      (fun m kv => if isBlankValue kv.2 then HeaderMap.delete m kv.1 else m) game.Headers }

/-- Go `RemoveEmptyHeaders`, the entries taken in the order of the association list. -/
def RemoveEmptyHeaders (game : Game) : Game :=
  RemoveEmptyHeadersIn game.Headers game

/-- Go `RemoveFields`. -/
def RemoveFields (game : Game) (fieldsToRemove : List Str) : Game :=
  { game with Headers := fieldsToRemove.foldl HeaderMap.delete game.Headers }

/-- The line that `fmt.Fprintf(writer, "[%s \"%s\"]\n", key, value)` writes. -/
def headerLine (key value : Str) : Str :=
  ['['] ++ key ++ [' ', '"'] ++ value ++ ['"', ']', '\n']

/-- The text that one iteration of the outer loop of `SavePGN` writes for `game`, with
`order` the entries of `game.Headers` in the order in which `range` yields them: the
header lines, the trimmed moves on a line, and an empty line unless the game is the
last one. -/
def saveGame (order : List (Str × Str)) (game : Game) (isLast : Bool) : Str :=
  (order.map (fun kv => headerLine kv.1 kv.2)).flatten ++
    (TrimSpace game.Moves ++ ['\n']) ++ (if isLast then [] else ['\n'])

/-- Go `SavePGN`: the text written to the file, for the games given each with the
order in which its headers are written. -/
def SavePGN : List (List (Str × Str) × Game) → Str
  | [] => []
  | [og] => saveGame og.1 og.2 true
  | og :: og' :: rest => saveGame og.1 og.2 false ++ SavePGN (og' :: rest)

/-- Go `concatenatePGNFiles`, on the contents of the files: each content is followed
by two newlines. -/
def concatenatePGNFiles (files : List Str) : Str :=
  files.foldl (fun content data => content ++ data ++ ['\n', '\n']) []

/-- The options that `main` reads after the input is loaded (fields of `opts`). -/
structure Opts where
  KeepEmpty : Bool
  RemoveFields : List Str
  FilterBefore : Int
  FilterAfter : Int
  FilterYearlessGames : Bool
  FilterEloBelow : Int
  FilterEloAbove : Int
  FilterElolessGames : Bool
  KeepPlayerless : Bool
  RemoveComments : Bool

/-- The numbers that `main` prints: the count of parsed games, the count printed after
each of the three filter stages (`none` when the stage does not run), and the count of
saved games. -/
structure Report where
  parsed : Int
  withoutPlayers : Option Int
  yearRange : Option Int
  eloRange : Option Int
  saved : Int
  deriving DecidableEq, Repr

/-- Lines 246-251 of `main`: the fields `ECO`, `PlyCount`, `Variation` and the fields
of the option are removed from every game, when the option names a field. -/
def stageFields (opts : Opts) (games : List Game) : List Game :=
  if opts.RemoveFields.length > 0 then
    games.map (fun g =>
      RemoveFields g (["ECO".toList, "PlyCount".toList, "Variation".toList] ++ opts.RemoveFields))
  else games

/-- Lines 252-256 of `main`. -/
def stageEmpty (opts : Opts) (games : List Game) : List Game :=
  if !opts.KeepEmpty then games.map RemoveEmptyHeaders else games

/-- Lines 258-261 of `main`, the games. -/
def stagePlayers (opts : Opts) (games : List Game) : List Game :=
  if !opts.KeepPlayerless then RemoveGamesWithoutPlayers games else games

/-- The condition of line 263 of `main`. -/
def yearStageRuns (opts : Opts) : Bool :=
  opts.FilterBefore != 0 || opts.FilterAfter != 0 || opts.FilterYearlessGames

/-- Lines 263-266 of `main`, the games. -/
def stageYear (opts : Opts) (games : List Game) : List Game :=
  if yearStageRuns opts then
    FilterGamesByYearRange games opts.FilterBefore opts.FilterAfter opts.FilterYearlessGames
  else games

/-- The condition of line 269 of `main`. -/
def eloStageRuns (opts : Opts) : Bool :=
  opts.FilterEloBelow != 0 || opts.FilterEloAbove != 0 || opts.FilterElolessGames

/-- Lines 269-272 of `main`, the games. -/
def stageElo (opts : Opts) (games : List Game) : List Game :=
  if eloStageRuns opts then
    FilterGamesByEloRange games opts.FilterEloBelow opts.FilterEloAbove opts.FilterElolessGames
  else games

/-- Lines 243-279 of `main`, from the parsed games on: the games handed to `SavePGN`
and the numbers printed.  The variable `gameCount` is set after parsing and once more
at line 268, after the year stage. -/
def runStages (opts : Opts) (parsed : List Game) : List Game × Report :=
  let gameCount : Int := parsed.length
  let games2 := stageEmpty opts (stageFields opts parsed)
  let games3 := stagePlayers opts games2
  let games4 := stageYear opts games3
  let gameCount' : Int := games4.length
  let games5 := stageElo opts games4
  (games5,
   { parsed := gameCount,
     withoutPlayers := if !opts.KeepPlayerless then some (gameCount - games3.length) else none,
     yearRange := if yearStageRuns opts then some (gameCount - games4.length) else none,
     eloRange := if eloStageRuns opts then some (gameCount' - games5.length) else none,
     saved := games5.length })

/-! ## Definitions that follow the specification's words -/

/-- Comment stripping as the specification words it: the span that runs from the first
`{` to the nearest `}` after it is deleted, the text before it is kept, and the same is
done with the text after the span; a text with no such span is left as it is. -/
def deleteCommentSpans (s : Str) : Str :=
  if '}' ∈ (s.dropWhile (fun c => c != '{')).tail then
    s.takeWhile (fun c => c != '{') ++
      deleteCommentSpans
        (((s.dropWhile (fun c => c != '{')).tail.dropWhile (fun c => c != '}')).tail)
  else s
termination_by s.length
decreasing_by
  rename_i h
  have h1 : (s.dropWhile (fun c => c != '{')).tail ≠ [] := List.ne_nil_of_mem h
  have h2 : (s.dropWhile (fun c => c != '{')).tail.length + 1 =
      (s.dropWhile (fun c => c != '{')).length := by
    cases hd : s.dropWhile (fun c => c != '{') with
    | nil => simp [hd] at h1
    | cons x xs => simp
  have h3 : (s.dropWhile (fun c => c != '{')).length ≤ s.length :=
    (List.dropWhile_sublist _).length_le
  have h4 : (((s.dropWhile (fun c => c != '{')).tail.dropWhile (fun c => c != '}')).tail).length ≤
      (s.dropWhile (fun c => c != '{')).tail.length := by
    have := (List.dropWhile_sublist (fun c => c != '}')
      (l := (s.dropWhile (fun c => c != '{')).tail)).length_le
    simp only [List.length_tail] at *
    omega
  omega

/-- A block of a PGN text: the names and values of its tag lines, and its movetext
lines. -/
structure Block where
  tags : List (Str × Str)
  moves : List Str

/-- The tag line `[Name "Value"]`. -/
def tagLine (nv : Str × Str) : Str :=
  ['['] ++ nv.1 ++ [' ', '"'] ++ nv.2 ++ ['"', ']']

/-- The lines of a block: its tag lines, then its movetext lines. -/
def Block.lines (b : Block) : List Str :=
  b.tags.map tagLine ++ b.moves

/-- The text made of the given lines, each followed by a newline. -/
def textOfLines (ls : List Str) : Str :=
  (ls.map (fun l => l ++ ['\n'])).flatten

/-- The text made of consecutive blocks. -/
def textOfBlocks (bs : List Block) : Str :=
  textOfLines (bs.map Block.lines).flatten

/-- A tag name without space, bracket, quote or line break. -/
def ValidName (n : Str) : Prop :=
  ∀ c ∈ n, c ≠ ' ' ∧ c ≠ '[' ∧ c ≠ ']' ∧ c ≠ '"' ∧ c ≠ '\n'

/-- A tag value without quote or line break. -/
def ValidValue (v : Str) : Prop :=
  ∀ c ∈ v, c ≠ '"' ∧ c ≠ '\n'

/-- A movetext line: one line, not blank, whose first character that is not white
space is not `[`. -/
def ValidMoveLine (l : Str) : Prop :=
  '\n' ∉ l ∧ (∃ c ∈ l, isSpace c = false) ∧ (l.dropWhile isSpace).head? ≠ some '['

/-- A block with one or more tag lines followed by one or more movetext lines. -/
def Block.WellFormed (b : Block) : Prop :=
  b.tags ≠ [] ∧ b.moves ≠ [] ∧
  (∀ nv ∈ b.tags, ValidName nv.1 ∧ ValidValue nv.2) ∧
  (∀ l ∈ b.moves, ValidMoveLine l)

instance (n : Str) : Decidable (ValidName n) :=
  inferInstanceAs (Decidable (∀ c ∈ n, c ≠ ' ' ∧ c ≠ '[' ∧ c ≠ ']' ∧ c ≠ '"' ∧ c ≠ '\n'))

instance (v : Str) : Decidable (ValidValue v) :=
  inferInstanceAs (Decidable (∀ c ∈ v, c ≠ '"' ∧ c ≠ '\n'))

instance (l : Str) : Decidable (ValidMoveLine l) :=
  inferInstanceAs (Decidable
    ('\n' ∉ l ∧ (∃ c ∈ l, isSpace c = false) ∧ (l.dropWhile isSpace).head? ≠ some '['))

instance (b : Block) : Decidable b.WellFormed :=
  inferInstanceAs (Decidable
    (b.tags ≠ [] ∧ b.moves ≠ [] ∧
      (∀ nv ∈ b.tags, ValidName nv.1 ∧ ValidValue nv.2) ∧
      (∀ l ∈ b.moves, ValidMoveLine l)))

/-- The value of the last tag line of the list that carries the name `k`. -/
def lastValue (tags : List (Str × Str)) (k : Str) : Option Str :=
  tags.foldl (fun acc nv => if nv.1 = k then some nv.2 else acc) none

/-- The movetext of a block: each movetext line, trimmed, followed by one space. -/
def Block.movetext (b : Block) : Str :=
  (b.moves.map (fun l => TrimSpace l ++ [' '])).flatten

/-- The record of a block: its tags stored one after the other, and its movetext. -/
def Block.record (b : Block) : Game :=
  { Headers := b.tags.foldl (fun m nv => HeaderMap.set m nv.1 nv.2) [],
    Moves := b.movetext }

/-- Two blocks: the first repeats the tag `Event` and has two movetext lines, the
second has one tag and one movetext line. -/
def sampleBlocks : List Block :=
  [{ tags := [("Event".toList, "a".toList), ("Event".toList, "b".toList)],
     moves := [" 1. e4 ".toList, "e5".toList] },
   { tags := [("White".toList, "x".toList)], moves := ["1. d4".toList] }]

/-- A line of `65536` letters `a`. -/
def longLine : Str := List.replicate 65536 'a'

/-- Two blocks, the first with a movetext line of `65536` letters. -/
def longLineBlocks : List Block :=
  [{ tags := [("A".toList, "x".toList)], moves := [longLine] },
   { tags := [("B".toList, "y".toList)], moves := ["e4".toList] }]

/-- A text has a comment span when some `{` in it is followed, anywhere later, by a `}`. -/
def HasCommentSpan (s : Str) : Prop :=
  ∃ a b c : Str, s = a ++ '{' :: b ++ '}' :: c

/-- The invariant behind C4: the games already emitted have moves, and the moves of
the current game are empty or end with the space that follows every line. -/
def MovesInv (st : ParseState) : Prop :=
  (∀ g ∈ st.games, g.Moves ≠ []) ∧
  (st.currentGame.Moves = [] ∨ ∃ s : Str, st.currentGame.Moves = s ++ [' '])

/-- The invariant behind C5: no header value of an emitted game or of the current game
begins or ends with a double quote. -/
def QuoteInv (st : ParseState) : Prop :=
  (∀ g ∈ st.games, ∀ kv ∈ g.Headers, kv.2.head? ≠ some '"' ∧ kv.2.getLast? ≠ some '"') ∧
  (∀ kv ∈ st.currentGame.Headers, kv.2.head? ≠ some '"' ∧ kv.2.getLast? ≠ some '"')

/-- The invariant behind the comment-free prefix of the output: with comment removal
on, no emitted game has a comment span. -/
def StrippedInv (st : ParseState) : Prop :=
  ∀ g ∈ st.games, ¬ HasCommentSpan g.Moves

/-- A tag name that survives writing and parsing: no space, no newline, and no bracket
as first character. -/
def SavableName (n : Str) : Prop :=
  ' ' ∉ n ∧ '\n' ∉ n ∧ n.head? ≠ some '[' ∧ n.head? ≠ some ']'

/-- A tag value that survives writing and parsing: no newline, and no double quote as
first or last character. -/
def SavableValue (v : Str) : Prop :=
  '\n' ∉ v ∧ v.head? ≠ some '"' ∧ v.getLast? ≠ some '"'

/-- A game, with the order in which its headers are written, that survives writing
and parsing: the order lists the entries of the headers, which form a map; the names
and values are savable; the trimmed moves have no newline and do not begin with `[`;
and every line written for the game is shorter than the buffer of the scanner. -/
def SavableGame (og : List (Str × Str) × Game) : Prop :=
  og.1.Perm og.2.Headers ∧ (og.2.Headers.map Prod.fst).Nodup ∧
  (∀ kv ∈ og.1, SavableName kv.1 ∧ SavableValue kv.2) ∧
  '\n' ∉ TrimSpace og.2.Moves ∧ (TrimSpace og.2.Moves).head? ≠ some '[' ∧
  (∀ kv ∈ og.1, utf8Len (tagLine kv) < MaxScanTokenSize) ∧
  utf8Len (TrimSpace og.2.Moves) < MaxScanTokenSize

instance (n : Str) : Decidable (SavableName n) :=
  inferInstanceAs (Decidable (' ' ∉ n ∧ '\n' ∉ n ∧ n.head? ≠ some '[' ∧ n.head? ≠ some ']'))

instance (v : Str) : Decidable (SavableValue v) :=
  inferInstanceAs (Decidable ('\n' ∉ v ∧ v.head? ≠ some '"' ∧ v.getLast? ≠ some '"'))

instance (og : List (Str × Str) × Game) : Decidable (SavableGame og) :=
  inferInstanceAs (Decidable
    (og.1.Perm og.2.Headers ∧ (og.2.Headers.map Prod.fst).Nodup ∧
      (∀ kv ∈ og.1, SavableName kv.1 ∧ SavableValue kv.2) ∧
      '\n' ∉ TrimSpace og.2.Moves ∧ (TrimSpace og.2.Moves).head? ≠ some '[' ∧
      (∀ kv ∈ og.1, utf8Len (tagLine kv) < MaxScanTokenSize) ∧
      utf8Len (TrimSpace og.2.Moves) < MaxScanTokenSize))

/-- The lines that `SavePGN` writes for one game: the header lines and the trimmed
moves. -/
def gameLines (og : List (Str × Str) × Game) : List Str :=
  og.1.map tagLine ++ [TrimSpace og.2.Moves]

/-- The lines that `SavePGN` writes: the lines of the games, with an empty line
between two games. -/
def saveLines : List (List (Str × Str) × Game) → List Str
  | [] => []
  | [og] => gameLines og
  | og :: og' :: rest => gameLines og ++ [[]] ++ saveLines (og' :: rest)

/-- The record that parsing reads back for a game written by `SavePGN`: the headers,
stored in the order in which they were written, and the trimmed moves followed by one
space (no moves when the moves are blank). -/
def readBack (og : List (Str × Str) × Game) : Game :=
  { Headers := og.1.foldl (fun m nv => HeaderMap.set m nv.1 nv.2) [],
    Moves := if TrimSpace og.2.Moves = [] then [] else TrimSpace og.2.Moves ++ [' '] }

/-- Three games with the order in which their headers are written: a game without
tags, a game with two tags written in the reverse order and padded moves, and a game
with a tag and no moves. -/
def sampleSaved : List (List (Str × Str) × Game) :=
  [([], { Headers := [], Moves := "1. e4 e5 ".toList }),
   ([("Black".toList, "Tal".toList), ("White".toList, "a \"b\" c".toList)],
     { Headers := [("White".toList, "a \"b\" c".toList), ("Black".toList, "Tal".toList)],
       Moves := "  1. d4 ".toList }),
   ([("Event".toList, "x".toList)],
     { Headers := [("Event".toList, "x".toList)], Moves := [] })]

/-- The options of a run with no flag given: every switch off, every bound zero, no
field named. -/
def defaultOpts : Opts :=
  { KeepEmpty := false, RemoveFields := [], FilterBefore := 0, FilterAfter := 0,
    FilterYearlessGames := false, FilterEloBelow := 0, FilterEloAbove := 0,
    FilterElolessGames := false, KeepPlayerless := false, RemoveComments := false }

end PGNOptimizer

/-! # Theorems -/

namespace PGNOptimizer

/-! ## Comment stripping -/

theorem stripFrom_false_of_not_mem (s : Str) (h : '}' ∉ s) : stripFrom false s = s := by
  induction s with
  | nil => rfl
  | cons c cs ih =>
    have hcs : '}' ∉ cs := fun hm => h (List.mem_cons_of_mem _ hm)
    simp [stripFrom, hcs, ih]

theorem stripFrom_true_of_mem (s : Str) (h : '}' ∈ s) :
    stripFrom true s = stripFrom false ((s.dropWhile (fun c => c != '}')).tail) := by
  induction s with
  | nil => simp at h
  | cons c cs ih =>
    by_cases hc : c = '}'
    · subst hc
      simp [stripFrom]
    · have hcs : '}' ∈ cs := by
        rcases List.mem_cons.1 h with h1 | h1
        · exact absurd h1.symm hc
        · exact h1
      simp [stripFrom, hc, ih hcs]

theorem stripFrom_false_unfold (s : Str) :
    stripFrom false s =
      if '}' ∈ (s.dropWhile (fun c => c != '{')).tail then
        s.takeWhile (fun c => c != '{') ++
          stripFrom false
            (((s.dropWhile (fun c => c != '{')).tail.dropWhile (fun c => c != '}')).tail)
      else s := by
  induction s with
  | nil => simp [stripFrom]
  | cons c cs ih =>
    by_cases hc : c = '{'
    · subst hc
      by_cases hm : '}' ∈ cs
      · simp [stripFrom, hm, stripFrom_true_of_mem]
      · simp [stripFrom, hm, stripFrom_false_of_not_mem]
    · by_cases hm : '}' ∈ (cs.dropWhile (fun c => c != '{')).tail
      · simp [stripFrom, hc, hm] at ih ⊢
        exact ih
      · simp [stripFrom, hc, hm] at ih ⊢
        exact ih

theorem RemoveCommentsFromMoves_eq_deleteCommentSpans_aux (n : Nat) :
    ∀ s : Str, s.length ≤ n → stripFrom false s = deleteCommentSpans s := by
  induction n with
  | zero =>
    intro s hs
    have : s = [] := List.length_eq_zero.1 (Nat.le_zero.1 hs)
    subst this
    rw [deleteCommentSpans]
    simp [stripFrom]
  | succ n ih =>
    intro s hs
    rw [stripFrom_false_unfold, deleteCommentSpans]
    by_cases hm : '}' ∈ (s.dropWhile (fun c => c != '{')).tail
    · rw [if_pos hm, if_pos hm]
      congr 1
      apply ih
      have h1 : (s.dropWhile (fun c => c != '{')).tail ≠ [] := List.ne_nil_of_mem hm
      have h2 : (s.dropWhile (fun c => c != '{')).tail.length + 1 =
          (s.dropWhile (fun c => c != '{')).length := by
        cases hd : s.dropWhile (fun c => c != '{') with
        | nil => simp [hd] at h1
        | cons x xs => simp
      have h3 : (s.dropWhile (fun c => c != '{')).length ≤ s.length :=
        (List.dropWhile_sublist _).length_le
      have h4 := (List.dropWhile_sublist (fun c => c != '}')
        (l := (s.dropWhile (fun c => c != '{')).tail)).length_le
      simp only [List.length_tail] at *
      omega
    · rw [if_neg hm, if_neg hm]

theorem dropWhile_append_of_all {α : Type} (p : α → Bool) (l r : List α)
    (h : ∀ x ∈ l, p x = true) : (l ++ r).dropWhile p = r.dropWhile p := by
  induction l with
  | nil => rfl
  | cons x xs ih =>
    have hx : p x = true := h x (List.mem_cons_self _ _)
    simp only [List.cons_append, List.dropWhile_cons, hx, if_true]
    exact ih (fun y hy => h y (List.mem_cons_of_mem _ hy))

theorem mem_dropWhile_of_hasCommentSpan (s : Str) (h : HasCommentSpan s) :
    '}' ∈ s.dropWhile (fun c => c != '{') := by
  obtain ⟨a, b, c, rfl⟩ := h
  induction a with
  | nil => simp
  | cons x xs ih =>
    by_cases hx : x = '{'
    · subst hx
      simp
    · simpa [List.dropWhile_cons, hx] using ih

theorem hasCommentSpan_of_mem_dropWhile (s : Str)
    (h : '}' ∈ s.dropWhile (fun c => c != '{')) : HasCommentSpan s := by
  have hs : s = s.takeWhile (fun c => c != '{') ++ s.dropWhile (fun c => c != '{') :=
    (List.takeWhile_append_dropWhile _ s).symm
  cases hd : s.dropWhile (fun c => c != '{') with
  | nil => simp [hd] at h
  | cons x xs =>
    have hx : x = '{' := by
      have := List.head_dropWhile_not (fun c => c != '{') s (by simp [hd])
      simpa [hd] using this
    subst hx
    rw [hd] at h
    have hxs : '}' ∈ xs := by simpa using h
    obtain ⟨b, c, hbc⟩ := List.append_of_mem hxs
    refine ⟨s.takeWhile (fun c => c != '{'), b, c, ?_⟩
    have hs2 := hs
    rw [hd, hbc] at hs2
    simpa [List.append_assoc] using hs2

theorem stripFrom_false_no_span_aux (n : Nat) :
    ∀ s : Str, s.length ≤ n → '}' ∉ (stripFrom false s).dropWhile (fun c => c != '{') := by
  induction n with
  | zero =>
    intro s hs
    have : s = [] := List.length_eq_zero.1 (Nat.le_zero.1 hs)
    subst this
    simp [stripFrom]
  | succ n ih =>
    intro s hs
    rw [stripFrom_false_unfold]
    by_cases hm : '}' ∈ (s.dropWhile (fun c => c != '{')).tail
    · rw [if_pos hm]
      rw [dropWhile_append_of_all]
      · apply ih
        have h1 : (s.dropWhile (fun c => c != '{')).tail ≠ [] := List.ne_nil_of_mem hm
        have h2 : (s.dropWhile (fun c => c != '{')).tail.length + 1 =
            (s.dropWhile (fun c => c != '{')).length := by
          cases hd : s.dropWhile (fun c => c != '{') with
          | nil => simp [hd] at h1
          | cons x xs => simp
        have h3 : (s.dropWhile (fun c => c != '{')).length ≤ s.length :=
          (List.dropWhile_sublist _).length_le
        have h4 := (List.dropWhile_sublist (fun c => c != '}')
          (l := (s.dropWhile (fun c => c != '{')).tail)).length_le
        simp only [List.length_tail] at *
        omega
      · intro x hx
        exact List.mem_takeWhile_imp (p := fun c => c != '{') hx
    · rw [if_neg hm]
      cases hd : s.dropWhile (fun c => c != '{') with
      | nil => simp
      | cons x xs =>
        have hx : x = '{' := by
          have := List.head_dropWhile_not (fun c => c != '{') s (by simp [hd])
          simpa [hd] using this
        rw [hd] at hm
        subst hx
        simpa using hm

theorem stripFrom_sublist : ∀ (b : Bool) (s : Str), (stripFrom b s).Sublist s := by
  intro b s
  induction s generalizing b with
  | nil => cases b <;> simp [stripFrom]
  | cons c cs ih =>
    cases b with
    | false =>
      by_cases h : c = '{' ∧ '}' ∈ cs
      · simp only [stripFrom, h, and_self, if_true]
        exact (ih true).cons _
      · simp only [stripFrom, h, if_false]
        exact (ih false).cons₂ _
    | true =>
      by_cases h : c = '}'
      · simp only [stripFrom, h, if_true]
        exact (ih false).cons _
      · simp only [stripFrom, h, if_false]
        exact (ih true).cons _

theorem stripFrom_false_not_hasCommentSpan (s : Str) :
    ¬ HasCommentSpan (stripFrom false s) := fun h =>
  stripFrom_false_no_span_aux s.length s le_rfl (mem_dropWhile_of_hasCommentSpan _ h)

/-- C2: `RemoveCommentsFromMoves s` is `s` with every span from a `{` to the nearest
following `}` deleted (spans taken left to right, as `deleteCommentSpans` spells out)
and every other character kept in order; the result has no `{` that is followed by a
`}`; and the text `1. e4 {a comment} e5 ` becomes `1. e4  e5 `. -/
theorem RemoveCommentsFromMoves_deletes_spans (s : Str) :
    RemoveCommentsFromMoves s = deleteCommentSpans s ∧
    (RemoveCommentsFromMoves s).Sublist s ∧
    ¬ HasCommentSpan (RemoveCommentsFromMoves s) ∧
    RemoveCommentsFromMoves "1. e4 {a comment} e5 ".toList = "1. e4  e5 ".toList := by
  refine ⟨RemoveCommentsFromMoves_eq_deleteCommentSpans_aux s.length s le_rfl,
    stripFrom_sublist false s, stripFrom_false_not_hasCommentSpan s, by decide⟩

/-! ## Invariants of the parser -/

theorem foldl_parseLine_invariant (P : ParseState → Prop) (rc : Bool)
    (hstep : ∀ st l, P st → P (parseLine rc st l)) :
    ∀ (ls : List Str) (st : ParseState), P st → P (ls.foldl (parseLine rc) st) := by
  intro ls
  induction ls with
  | nil => intro st h; exact h
  | cons l ls ih => intro st h; exact ih _ (hstep st l h)

theorem parseLine_invariant (P : ParseState → Prop) (rc : Bool)
    (hfin : ∀ st, P st → P (finalizeCurrent rc st))
    (hadd : ∀ st line, P st → P (addHeader st line))
    (happ : ∀ st line, P st → P (appendMoves st line)) :
    ∀ st l, P st → P (parseLine rc st l) := by
  intro st l h
  unfold parseLine
  simp only
  split
  · exact hadd _ _ (hfin _ h)
  · split
    · exact happ _ _ h
    · exact h

theorem stripFrom_false_cons (c : Char) (cs : Str) :
    stripFrom false (c :: cs) =
      if c = '{' ∧ '}' ∈ cs then stripFrom true cs else c :: stripFrom false cs := by
  simp [stripFrom]

theorem stripFrom_true_cons (c : Char) (cs : Str) :
    stripFrom true (c :: cs) =
      if c = '}' then stripFrom false cs else stripFrom true cs := by
  simp [stripFrom]

theorem stripFrom_append_space_ne_nil (s : Str) :
    ∀ b : Bool, (b = true → '}' ∈ s) → stripFrom b (s ++ [' ']) ≠ [] := by
  induction s with
  | nil =>
    intro b hb
    cases b with
    | false => simp [stripFrom]
    | true => simp at hb
  | cons c cs ih =>
    intro b hb
    cases b with
    | false =>
      rw [List.cons_append, stripFrom_false_cons]
      split_ifs with h
      · apply ih true
        intro _
        have := h.2
        simpa using this
      · simp
    | true =>
      rw [List.cons_append, stripFrom_true_cons]
      split_ifs with h
      · exact ih false (by simp)
      · apply ih true
        intro _
        rcases List.mem_cons.1 (hb rfl) with h1 | h1
        · exact absurd h1.symm h
        · exact h1

theorem MovesInv_parseLine (rc : Bool) (st : ParseState) (l : Str) (h : MovesInv st) :
    MovesInv (parseLine rc st l) := by
  refine parseLine_invariant MovesInv rc ?_ ?_ ?_ st l h
  · intro st h
    unfold finalizeCurrent
    by_cases hm : st.currentGame.Moves.length > 0
    · rw [if_pos hm]
      refine ⟨?_, Or.inl rfl⟩
      intro g hg
      rcases List.mem_append.1 hg with hg | hg
      · exact h.1 g hg
      · have hne : st.currentGame.Moves ≠ [] := List.ne_nil_of_length_pos hm
        rcases h.2 with h0 | ⟨s, hs⟩
        · exact absurd h0 hne
        · cases rc with
          | false =>
            simp only [List.mem_singleton] at hg
            subst hg
            simpa using hne
          | true =>
            simp only [List.mem_singleton, if_true] at hg
            subst hg
            simp only [RemoveCommentsFromMoves, hs]
            exact stripFrom_append_space_ne_nil s false (by simp)
    · rw [if_neg hm]
      exact h
  · intro st line h
    unfold addHeader
    split
    · exact ⟨h.1, h.2⟩
    · exact h
  · intro st line h
    exact ⟨h.1, Or.inr ⟨st.currentGame.Moves ++ line, rfl⟩⟩

/-- C4: every record returned by `ParsePGN`, with comment removal on or off, has
movetext that is not empty or at least one tag. -/
theorem ParsePGN_records_not_empty (content : Str) (removeComments : Bool) :
    ∀ g ∈ ParsePGN content removeComments, g.Moves ≠ [] ∨ g.Headers ≠ [] := by
  have hinv : MovesInv ((scanLines content).foldl (parseLine removeComments)
      { games := [], currentGame := newGame }) :=
    foldl_parseLine_invariant MovesInv removeComments (MovesInv_parseLine removeComments) _ _
      ⟨by simp, Or.inl rfl⟩
  intro g hg
  unfold ParsePGN finishParse at hg
  split_ifs at hg with hc
  · rcases List.mem_append.1 hg with hg | hg
    · exact Or.inl (hinv.1 g hg)
    · simp only [List.mem_singleton] at hg
      subst hg
      rcases hc with hc | hc
      · exact Or.inl (List.ne_nil_of_length_pos hc)
      · exact Or.inr (List.ne_nil_of_length_pos hc)
  · exact Or.inl (hinv.1 g hg)

theorem trim_head_not (p : Char → Bool) (s : Str) (c : Char) (hc : p c = true) :
    ((s.dropWhile p).rdropWhile p).head? ≠ some c := by
  intro h
  obtain ⟨t, ht⟩ := List.rdropWhile_prefix p (l := s.dropWhile p)
  cases hr : (s.dropWhile p).rdropWhile p with
  | nil => simp [hr] at h
  | cons x xs =>
    rw [hr] at h ht
    have hx : x = c := by simpa using h
    subst hx
    have hne : s.dropWhile p ≠ [] := by
      rw [← ht]
      simp
    have h1 := List.head_dropWhile_not p s hne
    have h2 : (s.dropWhile p).head hne = x := by
      simp [← ht]
    rw [h2, hc] at h1
    exact Bool.noConfusion h1

theorem trim_last_not (p : Char → Bool) (s : Str) (c : Char) (hc : p c = true) :
    ((s.dropWhile p).rdropWhile p).getLast? ≠ some c := by
  intro h
  by_cases hr : (s.dropWhile p).rdropWhile p = []
  · simp [hr] at h
  · have h1 := List.rdropWhile_last_not p (s.dropWhile p) hr
    rw [List.getLast?_eq_getLast _ hr] at h
    have h2 : ((s.dropWhile p).rdropWhile p).getLast hr = c := by simpa using h
    rw [h2] at h1
    exact h1 hc

theorem mem_set (m : HeaderMap) (k v : Str) (kv : Str × Str)
    (h : kv ∈ HeaderMap.set m k v) : kv = (k, v) ∨ kv ∈ m := by
  induction m with
  | nil =>
    simp only [HeaderMap.set, List.mem_singleton] at h
    exact Or.inl h
  | cons e m ih =>
    obtain ⟨k', v'⟩ := e
    simp only [HeaderMap.set] at h
    split_ifs at h with hk
    · rcases List.mem_cons.1 h with h | h
      · exact Or.inl h
      · exact Or.inr (List.mem_cons_of_mem _ h)
    · rcases List.mem_cons.1 h with h | h
      · exact Or.inr (h ▸ List.mem_cons_self _ _)
      · rcases ih h with h | h
        · exact Or.inl h
        · exact Or.inr (List.mem_cons_of_mem _ h)

theorem QuoteInv_parseLine (rc : Bool) (st : ParseState) (l : Str) (h : QuoteInv st) :
    QuoteInv (parseLine rc st l) := by
  refine parseLine_invariant QuoteInv rc ?_ ?_ ?_ st l h
  · intro st h
    unfold finalizeCurrent
    by_cases hm : st.currentGame.Moves.length > 0
    · rw [if_pos hm]
      refine ⟨?_, by simp [newGame]⟩
      intro g hg
      rcases List.mem_append.1 hg with hg | hg
      · exact h.1 g hg
      · cases rc with
        | false =>
          simp only [List.mem_singleton] at hg
          subst hg
          simpa using h.2
        | true =>
          simp only [List.mem_singleton, if_true] at hg
          subst hg
          exact h.2
    · rw [if_neg hm]
      exact h
  · intro st line h
    unfold addHeader
    split
    · refine ⟨h.1, ?_⟩
      intro kv hkv
      rcases mem_set _ _ _ _ hkv with hkv | hkv
      · subst hkv
        exact ⟨trim_head_not _ _ _ (by decide), trim_last_not _ _ _ (by decide)⟩
      · exact h.2 kv hkv
    · exact h
  · intro st line h
    exact ⟨h.1, h.2⟩

/-- C5: no tag value stored in a record returned by `ParsePGN` begins or ends with
the double quote character. -/
theorem ParsePGN_values_without_quotes (content : Str) (removeComments : Bool) :
    ∀ g ∈ ParsePGN content removeComments, ∀ kv ∈ g.Headers,
      kv.2.head? ≠ some '"' ∧ kv.2.getLast? ≠ some '"' := by
  have hinv : QuoteInv ((scanLines content).foldl (parseLine removeComments)
      { games := [], currentGame := newGame }) :=
    foldl_parseLine_invariant QuoteInv removeComments (QuoteInv_parseLine removeComments) _ _
      ⟨by simp, by simp [newGame]⟩
  intro g hg
  unfold ParsePGN finishParse at hg
  split_ifs at hg with hc
  · rcases List.mem_append.1 hg with hg | hg
    · exact hinv.1 g hg
    · simp only [List.mem_singleton] at hg
      subst hg
      exact hinv.2
  · exact hinv.1 g hg

theorem StrippedInv_parseLine (st : ParseState) (l : Str) (h : StrippedInv st) :
    StrippedInv (parseLine true st l) := by
  refine parseLine_invariant StrippedInv true ?_ ?_ ?_ st l h
  · intro st h
    unfold finalizeCurrent
    by_cases hm : st.currentGame.Moves.length > 0
    · rw [if_pos hm]
      intro g hg
      rcases List.mem_append.1 hg with hg | hg
      · exact h g hg
      · simp only [List.mem_singleton, if_true] at hg
        subst hg
        exact stripFrom_false_not_hasCommentSpan _
    · rw [if_neg hm]
      exact h
  · intro st line h
    unfold addHeader
    split
    · exact h
    · exact h
  · intro st line h
    exact h

/-- With comment removal on, every record of the output of `ParsePGN` other than the
last one is free of comment spans: the records emitted inside the loop are stripped. -/
theorem ParsePGN_stripped_before_last (content : Str) :
    ∀ g ∈ (ParsePGN content true).dropLast, ¬ HasCommentSpan g.Moves := by
  have hinv : StrippedInv ((scanLines content).foldl (parseLine true)
      { games := [], currentGame := newGame }) :=
    foldl_parseLine_invariant StrippedInv true StrippedInv_parseLine _ _ (by simp [StrippedInv])
  intro g hg
  unfold ParsePGN finishParse at hg
  split_ifs at hg with hc
  · rw [List.dropLast_concat] at hg
    exact hinv g hg
  · exact hinv g (List.dropLast_subset _ hg)

/-- C1: on the input `1. e4 {c} e5` with comment removal on, `ParsePGN` returns one
record, the one finalized at end of input, and its movetext still holds the comment
span `{c}`. -/
theorem ParsePGN_last_record_keeps_comment :
    ParsePGN "1. e4 {c} e5".toList true =
      [{ Headers := [], Moves := "1. e4 {c} e5 ".toList }] ∧
    HasCommentSpan "1. e4 {c} e5 ".toList :=
  ⟨by decide, ⟨"1. e4 ".toList, "c".toList, " e5 ".toList, by decide⟩⟩

/-- Witness for C4: the one record parsed from the text `e4`. -/
theorem ParsePGN_records_not_empty_witness :
    ({ Headers := [], Moves := "e4 ".toList } : Game) ∈ ParsePGN "e4".toList true ∧
    (("e4 ".toList : Str) ≠ [] ∨ ([] : HeaderMap) ≠ []) :=
  ⟨by decide,
    ParsePGN_records_not_empty "e4".toList true { Headers := [], Moves := "e4 ".toList }
      (by decide)⟩

/-- Witness for C5: the tag line `[Site ""Paris""]`, with doubled quotes, stores the
value `Paris`. -/
theorem ParsePGN_values_without_quotes_witness :
    ({ Headers := [("Site".toList, "Paris".toList)], Moves := [] } : Game) ∈
      ParsePGN "[Site \"\"Paris\"\"]".toList false ∧
    (("Site".toList, "Paris".toList) : Str × Str) ∈ [("Site".toList, "Paris".toList)] ∧
    ("Paris".toList.head? ≠ some '"' ∧ "Paris".toList.getLast? ≠ some '"') :=
  ⟨by decide, by decide,
    ParsePGN_values_without_quotes "[Site \"\"Paris\"\"]".toList false
      { Headers := [("Site".toList, "Paris".toList)], Moves := [] } (by decide)
      ("Site".toList, "Paris".toList) (by decide)⟩

/-! ## The filters -/

theorem FilterGamesByYearRange_append (pre post : List Game) (before after : Int)
    (dropYearless : Bool) :
    FilterGamesByYearRange (pre ++ post) before after dropYearless =
      FilterGamesByYearRange pre before after dropYearless ++
        FilterGamesByYearRange post before after dropYearless := by
  induction pre with
  | nil => simp [FilterGamesByYearRange]
  | cons g pre ih =>
    simp only [List.cons_append, FilterGamesByYearRange]
    split_ifs <;> simp [ih]

theorem FilterGamesByEloRange_append (pre post : List Game) (below above : Int)
    (dropEloless : Bool) :
    FilterGamesByEloRange (pre ++ post) below above dropEloless =
      FilterGamesByEloRange pre below above dropEloless ++
        FilterGamesByEloRange post below above dropEloless := by
  induction pre with
  | nil => simp [FilterGamesByEloRange]
  | cons g pre ih =>
    simp only [List.cons_append, FilterGamesByEloRange]
    split_ifs <;> simp [ih]

theorem RemoveGamesWithoutPlayers_append (pre post : List Game) :
    RemoveGamesWithoutPlayers (pre ++ post) =
      RemoveGamesWithoutPlayers pre ++ RemoveGamesWithoutPlayers post := by
  induction pre with
  | nil => simp [RemoveGamesWithoutPlayers]
  | cons g pre ih =>
    simp only [List.cons_append, RemoveGamesWithoutPlayers]
    split_ifs <;> simp [ih]

/-- C6: a record whose `Date` tag is present and whose text before the first `.` parses
as the integer `y` is kept by `FilterGamesByYearRange`, at its place in the sequence,
if and only if (`before = 0` or `y ≥ before`) and (`after = 0` or `y ≤ after`), whatever
`dropYearless` is. -/
theorem FilterGamesByYearRange_dated (pre post : List Game) (g : Game) (dateStr : Str)
    (y before after : Int) (dropYearless : Bool)
    (hdate : HeaderMap.get? g.Headers "Date".toList = some dateStr)
    (hyear : Atoi (splitHead dateStr '.') = (y, none)) :
    FilterGamesByYearRange (pre ++ g :: post) before after dropYearless =
      FilterGamesByYearRange pre before after dropYearless ++
        (if (before = 0 ∨ y ≥ before) ∧ (after = 0 ∨ y ≤ after) then [g] else []) ++
        FilterGamesByYearRange post before after dropYearless := by
  have hone : FilterGamesByYearRange (g :: post) before after dropYearless =
      (if (before = 0 ∨ y ≥ before) ∧ (after = 0 ∨ y ≤ after) then [g] else []) ++
        FilterGamesByYearRange post before after dropYearless := by
    simp only [FilterGamesByYearRange, HeaderMap.getD, hdate, extractYear, hyear,
      Option.getD_some, Option.isSome_some, Option.isSome_none, Bool.not_true, Bool.false_and]
    by_cases h1 : before = 0 <;> by_cases h2 : after = 0 <;>
      by_cases h3 : before ≤ y <;> by_cases h4 : y ≤ after <;> simp [h1, h2, h3, h4]
  rw [FilterGamesByYearRange_append, hone, List.append_assoc]

/-- Witness for C6: with `before = 2000` and `after = 2020`, a record dated
`1999.01.01` is dropped and a record dated `2010.05.01` is kept. -/
theorem FilterGamesByYearRange_dated_witness :
    FilterGamesByYearRange
        [{ Headers := [("Date".toList, "1999.01.01".toList)], Moves := [] }] 2000 2020 false
      = [] ∧
    FilterGamesByYearRange
        [{ Headers := [("Date".toList, "2010.05.01".toList)], Moves := [] }] 2000 2020 false
      = [{ Headers := [("Date".toList, "2010.05.01".toList)], Moves := [] }] :=
  ⟨by
    simpa [FilterGamesByYearRange] using
      FilterGamesByYearRange_dated [] []
        { Headers := [("Date".toList, "1999.01.01".toList)], Moves := [] }
        "1999.01.01".toList 1999 2000 2020 false (by decide) (by decide),
   by
    simpa [FilterGamesByYearRange] using
      FilterGamesByYearRange_dated [] []
        { Headers := [("Date".toList, "2010.05.01".toList)], Moves := [] }
        "2010.05.01".toList 2010 2000 2020 false (by decide) (by decide)⟩

/-- C7: with `before = 2000`, `after = 2020` and `dropYearless = false`, the record
with `Date` equal to `????.??.??`, whose year cannot be extracted, is dropped by
`FilterGamesByYearRange`: the value `0` that comes with the error is compared with
the bounds. -/
theorem FilterGamesByYearRange_drops_yearless :
    extractYear "????.??.??".toList = (0, some NumError.ErrSyntax) ∧
    FilterGamesByYearRange
        [{ Headers := [("Date".toList, "????.??.??".toList)], Moves := [] }] 2000 2020 false
      = [] := by
  decide

theorem FilterGamesByEloRange_cons (g : Game) (post : List Game) (below above : Int)
    (dropEloless : Bool) :
    FilterGamesByEloRange (g :: post) below above dropEloless =
      (if (dropEloless = true ∧
            ((Atoi (HeaderMap.getD g.Headers "WhiteElo".toList)).2 ≠ none ∨
             (Atoi (HeaderMap.getD g.Headers "BlackElo".toList)).2 ≠ none)) ∨
          (below ≠ 0 ∧
            (((Atoi (HeaderMap.getD g.Headers "WhiteElo".toList)).2 = none ∧
                (Atoi (HeaderMap.getD g.Headers "WhiteElo".toList)).1 < below) ∨
             ((Atoi (HeaderMap.getD g.Headers "BlackElo".toList)).2 = none ∧
                (Atoi (HeaderMap.getD g.Headers "BlackElo".toList)).1 < below))) ∨
          (above ≠ 0 ∧
            (((Atoi (HeaderMap.getD g.Headers "WhiteElo".toList)).2 = none ∧
                (Atoi (HeaderMap.getD g.Headers "WhiteElo".toList)).1 > above) ∨
             ((Atoi (HeaderMap.getD g.Headers "BlackElo".toList)).2 = none ∧
                (Atoi (HeaderMap.getD g.Headers "BlackElo".toList)).1 > above)))
       then [] else [g]) ++
        FilterGamesByEloRange post below above dropEloless := by
  rw [FilterGamesByEloRange]
  generalize Atoi (HeaderMap.getD g.Headers "WhiteElo".toList) = w
  generalize Atoi (HeaderMap.getD g.Headers "BlackElo".toList) = b
  obtain ⟨wv, we⟩ := w
  obtain ⟨bv, be⟩ := b
  simp only [Bool.or_eq_true, Bool.and_eq_true, decide_eq_true_eq, bne_iff_ne, ne_eq,
    Option.isSome_iff_ne_none, Option.isNone_iff_eq_none, gt_iff_lt]
  split_ifs with h1 h2 h2 <;> first | rfl | (exfalso; tauto)

/-- C8: `FilterGamesByEloRange` drops a record, at its place in the sequence, if and
only if (`dropEloless` and `WhiteElo` or `BlackElo` does not parse) or (`below ≠ 0` and
a side that parsed is below `below`) or (`above ≠ 0` and a side that parsed is above
`above`); a side that does not parse takes no part in the two comparisons.  With
`below = 2000`, `above = 0`, `dropEloless = false`: `WhiteElo = 1500` is dropped,
`WhiteElo = 2500` with `BlackElo = 2600` is kept, `WhiteElo = ?` is kept. -/
theorem FilterGamesByEloRange_drop_iff (pre post : List Game) (g : Game)
    (below above : Int) (dropEloless : Bool) :
    FilterGamesByEloRange (pre ++ g :: post) below above dropEloless =
      FilterGamesByEloRange pre below above dropEloless ++
        (if (dropEloless = true ∧
              ((Atoi (HeaderMap.getD g.Headers "WhiteElo".toList)).2 ≠ none ∨
               (Atoi (HeaderMap.getD g.Headers "BlackElo".toList)).2 ≠ none)) ∨
            (below ≠ 0 ∧
              (((Atoi (HeaderMap.getD g.Headers "WhiteElo".toList)).2 = none ∧
                  (Atoi (HeaderMap.getD g.Headers "WhiteElo".toList)).1 < below) ∨
               ((Atoi (HeaderMap.getD g.Headers "BlackElo".toList)).2 = none ∧
                  (Atoi (HeaderMap.getD g.Headers "BlackElo".toList)).1 < below))) ∨
            (above ≠ 0 ∧
              (((Atoi (HeaderMap.getD g.Headers "WhiteElo".toList)).2 = none ∧
                  (Atoi (HeaderMap.getD g.Headers "WhiteElo".toList)).1 > above) ∨
               ((Atoi (HeaderMap.getD g.Headers "BlackElo".toList)).2 = none ∧
                  (Atoi (HeaderMap.getD g.Headers "BlackElo".toList)).1 > above)))
         then [] else [g]) ++
        FilterGamesByEloRange post below above dropEloless ∧
    FilterGamesByEloRange
        [{ Headers := [("WhiteElo".toList, "1500".toList)], Moves := [] }] 2000 0 false
      = [] ∧
    FilterGamesByEloRange
        [{ Headers := [("WhiteElo".toList, "2500".toList), ("BlackElo".toList, "2600".toList)],
           Moves := [] }] 2000 0 false
      = [{ Headers := [("WhiteElo".toList, "2500".toList), ("BlackElo".toList, "2600".toList)],
           Moves := [] }] ∧
    FilterGamesByEloRange
        [{ Headers := [("WhiteElo".toList, "?".toList)], Moves := [] }] 2000 0 false
      = [{ Headers := [("WhiteElo".toList, "?".toList)], Moves := [] }] := by
  refine ⟨?_, by decide, by decide, by decide⟩
  rw [FilterGamesByEloRange_append, FilterGamesByEloRange_cons, List.append_assoc]

theorem getD_of_isSome_false (m : HeaderMap) (k : Str)
    (h : (HeaderMap.get? m k).isSome = false) : HeaderMap.getD m k = [] := by
  unfold HeaderMap.getD
  cases hg : HeaderMap.get? m k with
  | none => rfl
  | some v => simp [hg] at h

theorem RemoveGamesWithoutPlayers_cons (g : Game) (post : List Game) :
    RemoveGamesWithoutPlayers (g :: post) =
      (if isBlankValue (HeaderMap.getD g.Headers "White".toList) = true ∧
          isBlankValue (HeaderMap.getD g.Headers "Black".toList) = true
       then [] else [g]) ++ RemoveGamesWithoutPlayers post := by
  rw [RemoveGamesWithoutPlayers]
  by_cases hc : isBlankValue (HeaderMap.getD g.Headers "White".toList) = true ∧
      isBlankValue (HeaderMap.getD g.Headers "Black".toList) = true
  · rw [if_pos hc, if_pos (by rw [hc.1, hc.2]; simp)]
    rfl
  · rw [if_neg hc, if_neg]
    · rfl
    · intro h
      apply hc
      rcases Bool.or_eq_true_iff.1 h with h | h
      · have h' := Bool.and_eq_true_iff.1 h
        have hw := getD_of_isSome_false g.Headers "White".toList (by simpa using h'.1)
        have hb := getD_of_isSome_false g.Headers "Black".toList (by simpa using h'.2)
        rw [hw, hb]
        exact ⟨rfl, rfl⟩
      · exact Bool.and_eq_true_iff.1 h

theorem isBlankValue_getD_iff (m : HeaderMap) (k : Str) :
    isBlankValue (HeaderMap.getD m k) = true ↔
      ∀ v, HeaderMap.get? m k = some v → isBlankValue v = true := by
  unfold HeaderMap.getD
  cases h : HeaderMap.get? m k with
  | none => simp [isBlankValue]
  | some v => simp

/-- C9, counterexample: a record whose only tag is `White` with the value `?` has
exactly one of the two player tags, and `RemoveGamesWithoutPlayers` drops it. -/
theorem RemoveGamesWithoutPlayers_drops_single_blank_tag :
    HeaderMap.get? [("White".toList, "?".toList)] "White".toList = some "?".toList ∧
    HeaderMap.get? [("White".toList, "?".toList)] "Black".toList = none ∧
    RemoveGamesWithoutPlayers [{ Headers := [("White".toList, "?".toList)], Moves := [] }]
      = [] := by
  decide

/-- C9, amended: `RemoveGamesWithoutPlayers` drops a record, at its place in the
sequence, exactly when each of the tags `White` and `Black` is absent or has a value
made only of `?` and the white space of the class `\s`; every other record is kept, in
particular a record in which one of the two tags has a value that is not blank. -/
theorem RemoveGamesWithoutPlayers_drop_iff (pre post : List Game) (g : Game) :
    (((∀ v, HeaderMap.get? g.Headers "White".toList = some v → isBlankValue v = true) ∧
      (∀ v, HeaderMap.get? g.Headers "Black".toList = some v → isBlankValue v = true)) →
      RemoveGamesWithoutPlayers (pre ++ g :: post) =
        RemoveGamesWithoutPlayers pre ++ RemoveGamesWithoutPlayers post) ∧
    (¬ ((∀ v, HeaderMap.get? g.Headers "White".toList = some v → isBlankValue v = true) ∧
        (∀ v, HeaderMap.get? g.Headers "Black".toList = some v → isBlankValue v = true)) →
      RemoveGamesWithoutPlayers (pre ++ g :: post) =
        RemoveGamesWithoutPlayers pre ++ g :: RemoveGamesWithoutPlayers post) := by
  rw [RemoveGamesWithoutPlayers_append, RemoveGamesWithoutPlayers_cons]
  constructor
  · intro h
    rw [if_pos ⟨(isBlankValue_getD_iff _ _).2 h.1, (isBlankValue_getD_iff _ _).2 h.2⟩]
    rfl
  · intro h
    rw [if_neg (fun hc => h ⟨(isBlankValue_getD_iff _ _).1 hc.1,
      (isBlankValue_getD_iff _ _).1 hc.2⟩)]
    rfl

/-- Witness for C9, amended: a record with no player tag is dropped, and a record whose
only player tag is `White` with the value `Carlsen` is kept. -/
theorem RemoveGamesWithoutPlayers_drop_iff_witness :
    RemoveGamesWithoutPlayers [{ Headers := [], Moves := "e4 ".toList }] = [] ∧
    RemoveGamesWithoutPlayers
        [{ Headers := [("White".toList, "Carlsen".toList)], Moves := [] }]
      = [{ Headers := [("White".toList, "Carlsen".toList)], Moves := [] }] :=
  ⟨by
    simpa [RemoveGamesWithoutPlayers] using
      (RemoveGamesWithoutPlayers_drop_iff [] [] { Headers := [], Moves := "e4 ".toList }).1
        (by decide),
   by
    simpa [RemoveGamesWithoutPlayers] using
      (RemoveGamesWithoutPlayers_drop_iff [] []
        { Headers := [("White".toList, "Carlsen".toList)], Moves := [] }).2 (by decide)⟩

/-- C10: `RemoveGamesWithoutPlayers` removes, from any sequence, every record in which
both `White` and `Black` are absent, and keeps, at its place, every record in which
`White` or `Black` has a value that is not made only of `?` and white space. -/
theorem RemoveGamesWithoutPlayers_absent_removed_nonblank_kept
    (pre post : List Game) (g : Game) :
    ((HeaderMap.get? g.Headers "White".toList = none ∧
      HeaderMap.get? g.Headers "Black".toList = none) →
      RemoveGamesWithoutPlayers (pre ++ g :: post) =
        RemoveGamesWithoutPlayers pre ++ RemoveGamesWithoutPlayers post) ∧
    ((∃ v, (HeaderMap.get? g.Headers "White".toList = some v ∨
            HeaderMap.get? g.Headers "Black".toList = some v) ∧ isBlankValue v = false) →
      RemoveGamesWithoutPlayers (pre ++ g :: post) =
        RemoveGamesWithoutPlayers pre ++ g :: RemoveGamesWithoutPlayers post) := by
  rw [RemoveGamesWithoutPlayers_append, RemoveGamesWithoutPlayers_cons]
  constructor
  · rintro ⟨hw, hb⟩
    rw [if_pos ⟨(isBlankValue_getD_iff _ _).2 (fun v hv => by rw [hw] at hv; cases hv),
      (isBlankValue_getD_iff _ _).2 (fun v hv => by rw [hb] at hv; cases hv)⟩]
    rfl
  · rintro ⟨v, hv, hnb⟩
    rw [if_neg]
    · rfl
    · rintro ⟨h1, h2⟩
      rcases hv with hv | hv
      · rw [(isBlankValue_getD_iff _ _).1 h1 v hv] at hnb
        exact Bool.noConfusion hnb
      · rw [(isBlankValue_getD_iff _ _).1 h2 v hv] at hnb
        exact Bool.noConfusion hnb

/-- Witness for C10: among three records, the one without player tags goes, and the
ones with a named player stay, in their order. -/
theorem RemoveGamesWithoutPlayers_absent_removed_nonblank_kept_witness :
    RemoveGamesWithoutPlayers
        [{ Headers := [("White".toList, "Tal".toList)], Moves := [] },
         { Headers := [("Event".toList, "x".toList)], Moves := [] },
         { Headers := [("Black".toList, "Fischer".toList), ("White".toList, "?".toList)],
           Moves := [] }]
      = [{ Headers := [("White".toList, "Tal".toList)], Moves := [] },
         { Headers := [("Black".toList, "Fischer".toList), ("White".toList, "?".toList)],
           Moves := [] }] ∧
    RemoveGamesWithoutPlayers
        [{ Headers := [("White".toList, "?".toList)], Moves := [] },
         { Headers := [("Black".toList, "Fischer".toList), ("White".toList, "?".toList)],
           Moves := [] }]
      = [{ Headers := [("Black".toList, "Fischer".toList), ("White".toList, "?".toList)],
           Moves := [] }] :=
  ⟨by
    have h := (RemoveGamesWithoutPlayers_absent_removed_nonblank_kept
      [{ Headers := [("White".toList, "Tal".toList)], Moves := [] }]
      [{ Headers := [("Black".toList, "Fischer".toList), ("White".toList, "?".toList)],
         Moves := [] }]
      { Headers := [("Event".toList, "x".toList)], Moves := [] }).1 (by decide)
    rw [List.singleton_append] at h
    rw [h]
    decide,
   by
    have h := (RemoveGamesWithoutPlayers_absent_removed_nonblank_kept
      [{ Headers := [("White".toList, "?".toList)], Moves := [] }] []
      { Headers := [("Black".toList, "Fischer".toList), ("White".toList, "?".toList)],
        Moves := [] }).2 ⟨"Fischer".toList, Or.inr (by decide), by decide⟩
    rw [List.singleton_append] at h
    rw [h]
    decide⟩

/-! ## The parser on a text made of blocks -/

theorem rawLines_append_newline (l rest : Str) (h : '\n' ∉ l) :
    rawLines (l ++ '\n' :: rest) = l :: rawLines rest := by
  induction l with
  | nil => simp [rawLines]
  | cons c l ih =>
    have hc : c ≠ '\n' := fun e => h (e ▸ List.mem_cons_self _ _)
    have hl : '\n' ∉ l := fun hm => h (List.mem_cons_of_mem _ hm)
    rw [List.cons_append, rawLines, if_neg hc, ih hl]

theorem textOfLines_cons (l : Str) (ls : List Str) :
    textOfLines (l :: ls) = l ++ '\n' :: textOfLines ls := by
  simp [textOfLines]

theorem rawLines_textOfLines (ls : List Str) (h : ∀ l ∈ ls, '\n' ∉ l) :
    rawLines (textOfLines ls) = ls := by
  induction ls with
  | nil => simp [textOfLines, rawLines]
  | cons l ls ih =>
    rw [textOfLines_cons, rawLines_append_newline l _ (h l (List.mem_cons_self _ _)),
      ih (fun x hx => h x (List.mem_cons_of_mem _ hx))]

theorem rawLines_concat_newline (s : Str) (hne : s ≠ [])
    (hlast : s.getLast? ≠ some '\n') : rawLines (s ++ ['\n']) = rawLines s := by
  induction s with
  | nil => exact absurd rfl hne
  | cons c s ih =>
    cases s with
    | nil =>
      have hc : c ≠ '\n' := by
        intro e
        apply hlast
        simp [e]
      simp [rawLines, hc]
    | cons d s =>
      have ih' := ih (by simp) (by simpa [List.getLast?_cons_cons] using hlast)
      simp only [List.cons_append] at ih' ⊢
      rw [rawLines, ih']
      conv_rhs => rw [rawLines]

theorem scanLines_textOfLines (ls : List Str) (h : ∀ l ∈ ls, '\n' ∉ l)
    (hshort : ∀ l ∈ ls, utf8Len l < MaxScanTokenSize) :
    scanLines (textOfLines ls) = ls.map dropCR := by
  unfold scanLines
  rw [rawLines_textOfLines ls h]
  congr 1
  rw [List.takeWhile_eq_self_iff]
  intro l hl
  simpa using hshort l hl

theorem rdropWhile_append_of_all (p : Char → Bool) (v post : Str)
    (h : ∀ x ∈ post, p x = true) : (v ++ post).rdropWhile p = v.rdropWhile p := by
  unfold List.rdropWhile
  rw [List.reverse_append, dropWhile_append_of_all p _ _ (fun x hx => h x (List.mem_reverse.1 hx))]

theorem trim_wrapped (p : Char → Bool) (pre v post : Str)
    (hpre : ∀ x ∈ pre, p x = true) (hpost : ∀ x ∈ post, p x = true)
    (hhead : ∀ x, v.head? = some x → p x = false)
    (hlast : ∀ x, v.getLast? = some x → p x = false) :
    ((pre ++ v ++ post).dropWhile p).rdropWhile p = v := by
  rw [List.append_assoc, dropWhile_append_of_all p _ _ hpre]
  cases v with
  | nil =>
    have : post.dropWhile p = [] := List.dropWhile_eq_nil_iff.2 hpost
    simp [this]
  | cons c v =>
    have hc : p c = false := hhead c rfl
    rw [List.cons_append, List.dropWhile_cons_of_neg (by simp [hc]), ← List.cons_append,
      rdropWhile_append_of_all p _ _ hpost, List.rdropWhile_eq_self_iff]
    intro hl
    have := hlast _ (List.getLast?_eq_getLast _ hl)
    simp [this]

theorem TrimSpace_eq_self (l : Str) (hhead : ∀ x, l.head? = some x → isSpace x = false)
    (hlast : ∀ x, l.getLast? = some x → isSpace x = false) : TrimSpace l = l := by
  have := trim_wrapped isSpace [] l [] (by simp) (by simp) hhead hlast
  simpa [TrimSpace] using this

theorem dropWhile_append_of_exists (p : Char → Bool) (l r : Str)
    (h : ∃ y ∈ l, p y = false) : (l ++ r).dropWhile p = l.dropWhile p ++ r := by
  induction l with
  | nil => simp at h
  | cons c l ih =>
    by_cases hc : p c = true
    · obtain ⟨y, hy, hpy⟩ := h
      have hy' : y ∈ l := by
        rcases List.mem_cons.1 hy with e | e
        · subst e
          rw [hc] at hpy
          exact Bool.noConfusion hpy
        · exact e
      rw [List.cons_append, List.dropWhile_cons_of_pos hc, List.dropWhile_cons_of_pos hc,
        ih ⟨y, hy', hpy⟩]
    · rw [List.cons_append, List.dropWhile_cons_of_neg hc, List.dropWhile_cons_of_neg hc,
        List.cons_append]

theorem TrimSpace_concat_space (l : Str) (x : Char) (hx : isSpace x = true) :
    TrimSpace (l ++ [x]) = TrimSpace l := by
  unfold TrimSpace
  by_cases hall : ∀ y ∈ l, isSpace y = true
  · rw [dropWhile_append_of_all isSpace _ _ hall, List.dropWhile_eq_nil_iff.2 hall]
    simp [hx]
  · have hex : ∃ y ∈ l, isSpace y = false := by
      by_contra hn
      apply hall
      intro y hy
      by_contra hy2
      exact hn ⟨y, hy, by simpa using hy2⟩
    rw [dropWhile_append_of_exists isSpace _ _ hex, List.rdropWhile_concat_pos _ _ _ hx]

theorem TrimSpace_dropCR (l : Str) : TrimSpace (dropCR l) = TrimSpace l := by
  unfold dropCR
  split_ifs with h
  · obtain ⟨l', rfl⟩ : ∃ l', l = l' ++ ['\r'] := by
      have hne : l ≠ [] := by
        intro e
        simp [e] at h
      refine ⟨l.dropLast, ?_⟩
      have h1 := List.dropLast_append_getLast hne
      have h2 : l.getLast hne = '\r' := by
        rw [List.getLast?_eq_getLast _ hne] at h
        simpa using h
      rw [h2] at h1
      exact h1.symm
    rw [List.dropLast_concat, TrimSpace_concat_space _ _ (by decide)]
  · rfl

theorem TrimSpace_moveLine (l : Str) (h : ValidMoveLine l) :
    TrimSpace l ≠ [] ∧ HasPrefix (TrimSpace l) ['['] = false := by
  obtain ⟨-, ⟨y, hy, hyn⟩, hhead⟩ := h
  have hd : l.dropWhile isSpace ≠ [] := by
    intro e
    have := List.dropWhile_eq_nil_iff.1 e y hy
    rw [hyn] at this
    exact Bool.noConfusion this
  have hne : TrimSpace l ≠ [] := by
    unfold TrimSpace
    intro e
    have h1 := List.rdropWhile_eq_nil_iff.1 e _ (List.head_mem hd)
    rw [List.head_dropWhile_not isSpace l hd] at h1
    exact Bool.noConfusion h1
  refine ⟨hne, ?_⟩
  obtain ⟨t, ht⟩ := List.rdropWhile_prefix isSpace (l := l.dropWhile isSpace)
  cases hr : TrimSpace l with
  | nil => exact absurd hr hne
  | cons c cs =>
    have hr' : (l.dropWhile isSpace).rdropWhile isSpace = c :: cs := hr
    rw [hr'] at ht
    rw [← ht] at hhead
    have hc : c ≠ '[' := by simpa using hhead
    simp [HasPrefix, hc]

theorem tagLine_eq (nv : Str × Str) :
    tagLine nv = ['['] ++ (nv.1 ++ [' ', '"'] ++ nv.2 ++ ['"']) ++ [']'] := by
  simp [tagLine]

theorem tagLine_no_newline (nv : Str × Str) (hn : ValidName nv.1) (hv : ValidValue nv.2) :
    '\n' ∉ tagLine nv := by
  intro h
  simp only [tagLine, List.mem_append, List.mem_cons, List.mem_singleton] at h
  rcases h with (((h | h) | h) | h) | h
  · revert h; decide
  · exact (hn _ h).2.2.2.2 rfl
  · revert h; simp
  · exact (hv _ h).2 rfl
  · revert h; simp

theorem tagLine_getLast? (nv : Str × Str) : (tagLine nv).getLast? = some ']' := by
  rw [tagLine_eq, List.getLast?_append]
  rfl

theorem dropCR_tagLine (nv : Str × Str) : dropCR (tagLine nv) = tagLine nv := by
  unfold dropCR
  rw [tagLine_getLast?, if_neg (by decide)]

theorem TrimSpace_tagLine (nv : Str × Str) : TrimSpace (tagLine nv) = tagLine nv := by
  apply TrimSpace_eq_self
  · intro x hx
    have : x = '[' := by
      simp only [tagLine, List.singleton_append, List.cons_append, List.head?_cons,
        Option.some.injEq] at hx
      exact hx.symm
    subst this
    decide
  · intro x hx
    rw [tagLine_getLast?] at hx
    have : x = ']' := by simpa using hx.symm
    subst this
    decide

theorem HasPrefix_tagLine (nv : Str × Str) : HasPrefix (tagLine nv) ['['] = true := by
  simp [tagLine, HasPrefix]

theorem Trim_tagLine (nv : Str × Str) (hn : ValidName nv.1) :
    Trim (tagLine nv) ['[', ']'] = nv.1 ++ [' ', '"'] ++ nv.2 ++ ['"'] := by
  unfold Trim
  rw [tagLine_eq]
  apply trim_wrapped
  · intro x hx
    have : x = '[' := by simpa using hx
    subst this
    decide
  · intro x hx
    have : x = ']' := by simpa using hx
    subst this
    decide
  · intro x hx
    cases hn1 : nv.1 with
    | nil =>
      rw [hn1] at hx
      have : x = ' ' := by simpa using hx.symm
      subst this
      decide
    | cons c n =>
      rw [hn1] at hx
      have hxc : x = c := by simpa using hx.symm
      subst hxc
      have hc := hn x (by rw [hn1]; exact List.mem_cons_self _ _)
      simp [hc.2.1, hc.2.2.1]
  · intro x hx
    rw [List.getLast?_append] at hx
    have : x = '"' := by simpa using hx.symm
    subst this
    decide

theorem takeWhile_append_cons_of_all (p : Char → Bool) (l r : Str) (x : Char)
    (h : ∀ y ∈ l, p y = true) (hx : p x = false) : (l ++ x :: r).takeWhile p = l := by
  induction l with
  | nil => simp [List.takeWhile_cons, hx]
  | cons c l ih =>
    rw [List.cons_append, List.takeWhile_cons, h c (List.mem_cons_self _ _)]
    simp only [if_true]
    rw [ih (fun y hy => h y (List.mem_cons_of_mem _ hy))]

theorem SplitN2_header (n v : Str) (hn : ValidName n) :
    SplitN2 (n ++ [' ', '"'] ++ v ++ ['"']) ' ' = [n, ['"'] ++ v ++ ['"']] := by
  have hall : ∀ y ∈ n, (fun c : Char => c != ' ') y = true := by
    intro y hy
    simpa using (hn y hy).1
  have hrw : n ++ [' ', '"'] ++ v ++ ['"'] = n ++ ' ' :: (['"'] ++ v ++ ['"']) := by simp
  unfold SplitN2
  rw [hrw, if_pos (by simp), takeWhile_append_cons_of_all _ _ _ _ hall (by decide),
    dropWhile_append_of_all _ _ _ hall, List.dropWhile_cons_of_neg (by decide)]
  rfl

theorem Trim_quoted (v : Str) (hv : ValidValue v) : Trim (['"'] ++ v ++ ['"']) ['"'] = v := by
  unfold Trim
  apply trim_wrapped
  · intro x hx
    have : x = '"' := by simpa using hx
    subst this
    decide
  · intro x hx
    have : x = '"' := by simpa using hx
    subst this
    decide
  · intro x hx
    have hm : x ∈ v := List.mem_of_mem_head? hx
    simp [(hv x hm).1]
  · intro x hx
    have hm : x ∈ v := List.mem_of_mem_getLast? hx
    simp [(hv x hm).1]

theorem addHeader_tagLine (st : ParseState) (nv : Str × Str) (hn : ValidName nv.1)
    (hv : ValidValue nv.2) :
    addHeader st (tagLine nv) =
      { st with currentGame :=
          { st.currentGame with Headers := HeaderMap.set st.currentGame.Headers nv.1 nv.2 } } := by
  unfold addHeader
  rw [Trim_tagLine nv hn, SplitN2_header nv.1 nv.2 hn]
  simp only
  rw [Trim_quoted nv.2 hv]

theorem finalizeCurrent_of_nil (rc : Bool) (st : ParseState)
    (h : st.currentGame.Moves = []) : finalizeCurrent rc st = st := by
  unfold finalizeCurrent
  rw [if_neg (by simp [h])]

theorem parseLine_tagLine (rc : Bool) (st : ParseState) (nv : Str × Str)
    (hn : ValidName nv.1) (hv : ValidValue nv.2) :
    parseLine rc st (dropCR (tagLine nv)) =
      { games := (finalizeCurrent rc st).games,
        currentGame :=
          { Headers := HeaderMap.set (finalizeCurrent rc st).currentGame.Headers nv.1 nv.2,
            Moves := (finalizeCurrent rc st).currentGame.Moves } } := by
  unfold parseLine
  simp only
  rw [dropCR_tagLine, TrimSpace_tagLine, if_pos (HasPrefix_tagLine nv),
    addHeader_tagLine _ nv hn hv]

theorem parseLine_moveLine (rc : Bool) (st : ParseState) (l : Str) (h : ValidMoveLine l) :
    parseLine rc st (dropCR l) = appendMoves st (TrimSpace l) := by
  unfold parseLine
  simp only
  rw [TrimSpace_dropCR, if_neg (by simp [(TrimSpace_moveLine l h).2]),
    if_pos (TrimSpace_moveLine l h).1]

theorem foldl_tags (rc : Bool) (tags : List (Str × Str))
    (hvalid : ∀ nv ∈ tags, ValidName nv.1 ∧ ValidValue nv.2) :
    ∀ st : ParseState, st.currentGame.Moves = [] →
      ((tags.map tagLine).map dropCR).foldl (parseLine rc) st =
        { games := st.games,
          currentGame :=
            { Headers := tags.foldl (fun m nv => HeaderMap.set m nv.1 nv.2)
                st.currentGame.Headers,
              Moves := [] } } := by
  induction tags with
  | nil =>
    intro st h
    cases st with
    | mk games cur =>
      cases cur with
      | mk hs ms =>
        simp only at h
        subst h
        rfl
  | cons nv tags ih =>
    intro st h
    have hnv := hvalid nv (List.mem_cons_self _ _)
    simp only [List.map_cons, List.foldl_cons]
    rw [parseLine_tagLine rc st nv hnv.1 hnv.2, finalizeCurrent_of_nil rc st h]
    exact ih (fun x hx => hvalid x (List.mem_cons_of_mem _ hx))
      { games := st.games,
        currentGame :=
          { Headers := HeaderMap.set st.currentGame.Headers nv.1 nv.2,
            Moves := st.currentGame.Moves } } h

theorem foldl_moves (rc : Bool) (moves : List Str) (hvalid : ∀ l ∈ moves, ValidMoveLine l) :
    ∀ st : ParseState,
      (moves.map dropCR).foldl (parseLine rc) st =
        { games := st.games,
          currentGame :=
            { Headers := st.currentGame.Headers,
              Moves := st.currentGame.Moves ++
                (moves.map (fun l => TrimSpace l ++ [' '])).flatten } } := by
  induction moves with
  | nil =>
    intro st
    simp
  | cons l moves ih =>
    intro st
    simp only [List.map_cons, List.foldl_cons]
    rw [parseLine_moveLine rc st l (hvalid l (List.mem_cons_self _ _)),
      ih (fun x hx => hvalid x (List.mem_cons_of_mem _ hx))]
    simp [appendMoves]

theorem movetext_ne_nil (b : Block) (hwf : b.WellFormed) : b.movetext ≠ [] := by
  obtain ⟨-, hm, -, -⟩ := hwf
  unfold Block.movetext
  cases hb : b.moves with
  | nil => exact absurd hb hm
  | cons l ls => simp

theorem foldl_block (b : Block) (hwf : b.WellFormed) (st : ParseState)
    (hst : st.currentGame = newGame ∨ st.currentGame.Moves ≠ []) :
    (b.lines.map dropCR).foldl (parseLine false) st =
      { games := (finalizeCurrent false st).games, currentGame := b.record } := by
  obtain ⟨ht, -, hvalid, hmoves⟩ := hwf
  have hF : (finalizeCurrent false st).currentGame = newGame := by
    rcases hst with h | h
    · rw [finalizeCurrent_of_nil false st (by rw [h]; rfl)]
      exact h
    · unfold finalizeCurrent
      rw [if_pos (List.length_pos.2 h)]
  unfold Block.lines Block.record Block.movetext
  cases htags : b.tags with
  | nil => exact absurd htags ht
  | cons nv tags =>
    rw [htags] at hvalid
    have hnv := hvalid nv (List.mem_cons_self _ _)
    rw [List.map_append, List.foldl_append]
    simp only [List.map_cons, List.foldl_cons]
    rw [parseLine_tagLine false st nv hnv.1 hnv.2, hF,
      foldl_tags false tags (fun x hx => hvalid x (List.mem_cons_of_mem _ hx)) _ rfl,
      foldl_moves false b.moves hmoves]
    simp [newGame]

theorem foldl_blocks (bs : List Block) (hwf : ∀ b ∈ bs, b.WellFormed) :
    ∀ st : ParseState, st.currentGame.Moves ≠ [] →
      finishParse (((bs.map Block.lines).flatten.map dropCR).foldl (parseLine false) st) =
        st.games ++ [st.currentGame] ++ bs.map Block.record := by
  induction bs with
  | nil =>
    intro st h
    simp [finishParse, List.length_pos.2 h]
  | cons b bs ih =>
    intro st h
    have hb := hwf b (List.mem_cons_self _ _)
    simp only [List.map_cons, List.flatten_cons, List.map_append, List.foldl_append]
    rw [foldl_block b hb st (Or.inr h),
      ih (fun x hx => hwf x (List.mem_cons_of_mem _ hx)) _ (movetext_ne_nil b hb)]
    simp only [finalizeCurrent, if_pos (List.length_pos.2 h)]
    simp

theorem lines_no_newline (bs : List Block) (hwf : ∀ b ∈ bs, b.WellFormed) :
    ∀ l ∈ (bs.map Block.lines).flatten, '\n' ∉ l := by
  intro l hl
  simp only [List.mem_flatten, List.mem_map] at hl
  obtain ⟨ls, ⟨b, hb, rfl⟩, hl⟩ := hl
  obtain ⟨-, -, hvalid, hmoves⟩ := hwf b hb
  unfold Block.lines at hl
  rcases List.mem_append.1 hl with h | h
  · obtain ⟨nv, hnv, rfl⟩ := List.mem_map.1 h
    exact tagLine_no_newline nv (hvalid nv hnv).1 (hvalid nv hnv).2
  · exact (hmoves l h).1

theorem ParsePGN_textOfBlocks (bs : List Block) (hne : bs ≠ [])
    (hwf : ∀ b ∈ bs, b.WellFormed)
    (hshort : ∀ b ∈ bs, ∀ l ∈ b.lines, utf8Len l < MaxScanTokenSize) :
    ParsePGN (textOfBlocks bs) false = bs.map Block.record := by
  have hshort' : ∀ l ∈ (bs.map Block.lines).flatten, utf8Len l < MaxScanTokenSize := by
    intro l hl
    simp only [List.mem_flatten, List.mem_map] at hl
    obtain ⟨ls, ⟨b, hb, rfl⟩, hl⟩ := hl
    exact hshort b hb l hl
  unfold ParsePGN textOfBlocks
  rw [scanLines_textOfLines _ (lines_no_newline bs hwf) hshort']
  cases bs with
  | nil => exact absurd rfl hne
  | cons b bs =>
    have hb := hwf b (List.mem_cons_self _ _)
    simp only [List.map_cons, List.flatten_cons, List.map_append, List.foldl_append]
    rw [foldl_block b hb _ (Or.inl rfl),
      foldl_blocks bs (fun x hx => hwf x (List.mem_cons_of_mem _ hx)) _ (movetext_ne_nil b hb)]
    simp [finalizeCurrent, newGame]

theorem get?_set (m : HeaderMap) (k v k' : Str) :
    HeaderMap.get? (HeaderMap.set m k v) k' =
      if k = k' then some v else HeaderMap.get? m k' := by
  induction m with
  | nil => simp [HeaderMap.set, HeaderMap.get?]
  | cons e m ih =>
    obtain ⟨a, b⟩ := e
    by_cases hak : a = k
    · subst hak
      by_cases hak' : a = k' <;> simp [HeaderMap.set, HeaderMap.get?, hak']
    · by_cases hak' : a = k'
      · subst hak'
        have hka : ¬ k = a := fun e => hak e.symm
        simp [HeaderMap.set, HeaderMap.get?, hak, hka]
      · simp [HeaderMap.set, HeaderMap.get?, hak, hak', ih]

theorem get?_foldl_set (tags : List (Str × Str)) (k : Str) :
    ∀ m : HeaderMap,
      HeaderMap.get? (tags.foldl (fun m nv => HeaderMap.set m nv.1 nv.2) m) k =
        tags.foldl (fun acc nv => if nv.1 = k then some nv.2 else acc) (HeaderMap.get? m k) := by
  induction tags with
  | nil => intro m; rfl
  | cons nv tags ih =>
    intro m
    simp only [List.foldl_cons]
    rw [ih, get?_set]

theorem keys_set (m : HeaderMap) (k v : Str) :
    (HeaderMap.set m k v).map Prod.fst =
      if k ∈ m.map Prod.fst then m.map Prod.fst else m.map Prod.fst ++ [k] := by
  induction m with
  | nil => simp [HeaderMap.set]
  | cons e m ih =>
    obtain ⟨a, b⟩ := e
    by_cases hak : a = k
    · subst hak
      simp [HeaderMap.set]
    · have hka : ¬ k = a := fun e => hak e.symm
      simp only [HeaderMap.set, if_neg hak, List.map_cons, ih, List.mem_cons, hka, false_or]
      split_ifs <;> simp

theorem nodup_keys_set (m : HeaderMap) (k v : Str) (h : (m.map Prod.fst).Nodup) :
    ((HeaderMap.set m k v).map Prod.fst).Nodup := by
  rw [keys_set]
  split_ifs with hk
  · exact h
  · exact List.Nodup.append h (List.nodup_singleton k) (by simpa using hk)

theorem nodup_keys_foldl_set (tags : List (Str × Str)) :
    ∀ m : HeaderMap, (m.map Prod.fst).Nodup →
      ((tags.foldl (fun m nv => HeaderMap.set m nv.1 nv.2) m).map Prod.fst).Nodup := by
  induction tags with
  | nil => intro m h; exact h
  | cons nv tags ih =>
    intro m h
    exact ih _ (nodup_keys_set m nv.1 nv.2 h)

theorem lines_ne_nil (bs : List Block) (hwf : ∀ b ∈ bs, b.WellFormed) :
    ∀ l ∈ (bs.map Block.lines).flatten, l ≠ [] := by
  intro l hl
  simp only [List.mem_flatten, List.mem_map] at hl
  obtain ⟨ls, ⟨b, hb, rfl⟩, hl⟩ := hl
  obtain ⟨-, -, -, hmoves⟩ := hwf b hb
  unfold Block.lines at hl
  rcases List.mem_append.1 hl with h | h
  · obtain ⟨nv, -, rfl⟩ := List.mem_map.1 h
    simp [tagLine]
  · obtain ⟨-, ⟨y, hy, -⟩, -⟩ := hmoves l h
    exact List.ne_nil_of_mem hy

theorem rawLines_of_append_newline_eq (ls : List Str) (text : Str) (hls : ls ≠ [])
    (hne : ∀ l ∈ ls, l ≠ []) (hnl : ∀ l ∈ ls, '\n' ∉ l)
    (htext : text ++ ['\n'] = textOfLines ls) : rawLines text = rawLines (textOfLines ls) := by
  have hsplit := List.dropLast_append_getLast hls
  have hlast_mem : ls.getLast hls ∈ ls := List.getLast_mem hls
  have htl : textOfLines ls = (textOfLines ls.dropLast ++ ls.getLast hls) ++ ['\n'] := by
    conv_lhs => rw [← hsplit]
    simp [textOfLines]
  have ht : text = textOfLines ls.dropLast ++ ls.getLast hls := by
    rw [htl] at htext
    exact List.append_cancel_right htext
  rw [← htext]
  symm
  apply rawLines_concat_newline
  · rw [ht]
    simp [hne _ hlast_mem]
  · rw [ht, List.getLast?_append_of_ne_nil _ (hne _ hlast_mem)]
    intro h
    exact hnl _ hlast_mem (List.mem_of_mem_getLast? h)

theorem ParsePGN_of_append_newline_eq (bs : List Block) (text : Str) (hne : bs ≠ [])
    (hwf : ∀ b ∈ bs, b.WellFormed) (htext : text ++ ['\n'] = textOfBlocks bs) :
    ParsePGN text false = ParsePGN (textOfBlocks bs) false := by
  have hls : (bs.map Block.lines).flatten ≠ [] := by
    cases bs with
    | nil => exact absurd rfl hne
    | cons b bs =>
      obtain ⟨ht, -, -, -⟩ := hwf b (List.mem_cons_self _ _)
      cases hb : b.tags with
      | nil => exact absurd hb ht
      | cons nv tags => simp [Block.lines, hb]
  unfold ParsePGN scanLines
  rw [rawLines_of_append_newline_eq _ text hls (lines_ne_nil bs hwf) (lines_no_newline bs hwf)
    htext]
  rfl

theorem forall₂_map_record (bs : List Block) :
    List.Forall₂ (fun b g =>
        (∀ k, HeaderMap.get? g.Headers k = lastValue b.tags k) ∧
        (g.Headers.map Prod.fst).Nodup ∧ g.Moves = b.movetext)
      bs (bs.map Block.record) := by
  induction bs with
  | nil => exact List.Forall₂.nil
  | cons b bs ih =>
    refine List.Forall₂.cons ⟨?_, ?_, rfl⟩ ih
    · intro k
      exact get?_foldl_set b.tags k []
    · exact nodup_keys_foldl_set b.tags [] (by simp)

/-- C3, amended: for every text made of `n ≥ 1` consecutive well-formed blocks (with or
without a newline after the last line) in which every line is shorter than the
`65536` bytes of the scanner's buffer, `ParsePGN text false` returns exactly `n`
records in block order; the tags of the `i`-th record map each name of block `i` to
the value of its last occurrence in the block and hold nothing else, and its movetext
is the concatenation of the trimmed movetext lines of the block, each followed by one
space. -/
theorem ParsePGN_blocks (bs : List Block) (text : Str) (hne : bs ≠ [])
    (hwf : ∀ b ∈ bs, b.WellFormed)
    (hshort : ∀ b ∈ bs, ∀ l ∈ b.lines, utf8Len l < MaxScanTokenSize)
    (htext : text = textOfBlocks bs ∨ text ++ ['\n'] = textOfBlocks bs) :
    (ParsePGN text false).length = bs.length ∧
    List.Forall₂ (fun b g =>
        (∀ k, HeaderMap.get? g.Headers k = lastValue b.tags k) ∧
        (g.Headers.map Prod.fst).Nodup ∧ g.Moves = b.movetext)
      bs (ParsePGN text false) := by
  have h : ParsePGN text false = bs.map Block.record := by
    rcases htext with h | h
    · rw [h]
      exact ParsePGN_textOfBlocks bs hne hwf hshort
    · rw [ParsePGN_of_append_newline_eq bs text hne hwf h]
      exact ParsePGN_textOfBlocks bs hne hwf hshort
  rw [h]
  exact ⟨by simp, forall₂_map_record bs⟩

/-- Witness for C3, amended: a text of two blocks, without a newline after its last
line. -/
theorem ParsePGN_blocks_witness :
    (ParsePGN "[Event \"a\"]\n[Event \"b\"]\n 1. e4 \ne5\n[White \"x\"]\n1. d4".toList
      false).length = sampleBlocks.length ∧
    List.Forall₂ (fun b g =>
        (∀ k, HeaderMap.get? g.Headers k = lastValue b.tags k) ∧
        (g.Headers.map Prod.fst).Nodup ∧ g.Moves = b.movetext)
      sampleBlocks
      (ParsePGN "[Event \"a\"]\n[Event \"b\"]\n 1. e4 \ne5\n[White \"x\"]\n1. d4".toList
        false) :=
  ParsePGN_blocks sampleBlocks
    "[Event \"a\"]\n[Event \"b\"]\n 1. e4 \ne5\n[White \"x\"]\n1. d4".toList
    (List.cons_ne_nil _ _) (by decide) (by decide) (Or.inr (by decide))

theorem utf8Len_replicate_a (n : Nat) : utf8Len (List.replicate n 'a') = n := by
  unfold utf8Len
  rw [List.map_replicate, List.sum_replicate]
  have : Char.utf8Size 'a' = 1 := by decide
  rw [this]
  simp

theorem validMoveLine_replicate_a (n : Nat) : ValidMoveLine (List.replicate (n + 1) 'a') := by
  refine ⟨?_, ⟨'a', ?_, by decide⟩, ?_⟩
  · intro h
    have := (List.mem_replicate.1 h).2
    revert this
    decide
  · exact List.mem_replicate.2 ⟨Nat.succ_ne_zero n, rfl⟩
  · rw [List.replicate_succ, List.dropWhile_cons_of_neg (by decide), List.head?_cons]
    decide

/-- C3, counterexample: the text made of the two well-formed blocks of `longLineBlocks`,
the first of which has a movetext line of `65536` bytes, is parsed to one record, with
the tag of the first block and no movetext: the scanner stops at the long line, and
the loop of `ParsePGN` ends there. -/
theorem ParsePGN_stops_at_long_line :
    (∀ b ∈ longLineBlocks, b.WellFormed) ∧
    longLineBlocks.length = 2 ∧
    ParsePGN (textOfBlocks longLineBlocks) false =
      [{ Headers := [("A".toList, "x".toList)], Moves := [] }] := by
  have hlong : ValidMoveLine longLine := validMoveLine_replicate_a 65535
  have hwf : ∀ b ∈ longLineBlocks, b.WellFormed := by
    intro b hb
    simp only [longLineBlocks, List.mem_cons, List.mem_singleton, List.not_mem_nil,
      or_false] at hb
    rcases hb with rfl | rfl
    · refine ⟨List.cons_ne_nil _ _, List.cons_ne_nil _ _, by decide, ?_⟩
      intro l hl
      rw [List.mem_singleton.1 hl]
      exact hlong
    · decide
  refine ⟨hwf, rfl, ?_⟩
  have hlines : (longLineBlocks.map Block.lines).flatten =
      [tagLine ("A".toList, "x".toList), longLine,
        tagLine ("B".toList, "y".toList), "e4".toList] := rfl
  have hlen : utf8Len longLine = 65536 := utf8Len_replicate_a 65536
  unfold ParsePGN scanLines textOfBlocks
  rw [rawLines_textOfLines _ (lines_no_newline _ hwf), hlines,
    List.takeWhile_cons_of_pos (by decide),
    List.takeWhile_cons_of_neg (by rw [hlen]; decide)]
  decide

/-! ## Header cleanup and field removal -/

theorem foldl_delete_blank (order : List (Str × Str)) :
    ∀ m : HeaderMap,
      order.foldl (fun m kv => if isBlankValue kv.2 then HeaderMap.delete m kv.1 else m) m =
        m.filter (fun e =>
          !(order.any (fun kv => isBlankValue kv.2 && decide (kv.1 = e.1)))) := by
  induction order with
  | nil => intro m; simp
  | cons kv order ih =>
    intro m
    rw [List.foldl_cons, ih]
    by_cases hb : isBlankValue kv.2 = true
    · rw [if_pos hb, HeaderMap.delete, List.filter_filter]
      apply List.filter_congr
      intro e _
      by_cases hk : kv.1 = e.1
      · simp [hb, hk]
      · have hk' : ¬ e.1 = kv.1 := fun h => hk h.symm
        simp [hb, hk, hk']
    · rw [if_neg hb]
      apply List.filter_congr
      intro e _
      simp [hb]

theorem RemoveEmptyHeadersIn_headers (order : List (Str × Str)) (g : Game) :
    (RemoveEmptyHeadersIn order g).Headers =
      g.Headers.filter (fun e =>
        !(order.any (fun kv => isBlankValue kv.2 && decide (kv.1 = e.1)))) :=
  foldl_delete_blank order g.Headers

theorem RemoveEmptyHeadersIn_perm (order : List (Str × Str)) (g : Game)
    (hperm : order.Perm g.Headers) : RemoveEmptyHeadersIn order g = RemoveEmptyHeaders g := by
  have h : (RemoveEmptyHeadersIn order g).Headers = (RemoveEmptyHeaders g).Headers := by
    rw [RemoveEmptyHeaders, RemoveEmptyHeadersIn_headers, RemoveEmptyHeadersIn_headers]
    apply List.filter_congr
    intro e _
    congr 1
    rw [Bool.eq_iff_iff]
    simp only [List.any_eq_true]
    constructor
    · rintro ⟨kv, hkv, h⟩
      exact ⟨kv, hperm.mem_iff.1 hkv, h⟩
    · rintro ⟨kv, hkv, h⟩
      exact ⟨kv, hperm.mem_iff.2 hkv, h⟩
  unfold RemoveEmptyHeaders RemoveEmptyHeadersIn at *
  simp only at h
  rw [h]

theorem get?_eq_none_of_not_mem_keys (m : HeaderMap) (k : Str)
    (h : k ∉ m.map Prod.fst) : HeaderMap.get? m k = none := by
  induction m with
  | nil => rfl
  | cons e m ih =>
    obtain ⟨a, b⟩ := e
    have hak : ¬ a = k := fun e => h (by simp [e])
    have hm : k ∉ m.map Prod.fst := fun hm => h (by simp at hm ⊢; exact Or.inr hm)
    simp [HeaderMap.get?, hak, ih hm]

theorem mem_of_get?_eq_some (m : HeaderMap) (k v : Str)
    (h : HeaderMap.get? m k = some v) : (k, v) ∈ m := by
  induction m with
  | nil => simp [HeaderMap.get?] at h
  | cons e m ih =>
    obtain ⟨a, b⟩ := e
    by_cases hak : a = k
    · simp only [HeaderMap.get?, if_pos hak, Option.some.injEq] at h
      rw [hak, h]
      exact List.mem_cons_self _ _
    · simp only [HeaderMap.get?, if_neg hak] at h
      exact List.mem_cons_of_mem _ (ih h)

theorem get?_filter_values (p : Str → Bool) (m : HeaderMap)
    (hnodup : (m.map Prod.fst).Nodup) (k : Str) :
    HeaderMap.get? (m.filter (fun e => p e.2)) k = (HeaderMap.get? m k).filter p := by
  induction m with
  | nil => rfl
  | cons e m ih =>
    obtain ⟨a, b⟩ := e
    rw [List.map_cons, List.nodup_cons] at hnodup
    by_cases hak : a = k
    · subst hak
      have hnone : HeaderMap.get? (m.filter (fun e => p e.2)) a = none := by
        apply get?_eq_none_of_not_mem_keys
        intro hm
        apply hnodup.1
        obtain ⟨e, he, hea⟩ := List.mem_map.1 hm
        exact List.mem_map.2 ⟨e, List.mem_of_mem_filter he, hea⟩
      by_cases hp : p b = true
      · simp [List.filter_cons, hp, HeaderMap.get?, Option.filter]
      · simp [List.filter_cons, hp, HeaderMap.get?, Option.filter, hnone]
    · by_cases hp : p b = true
      · simp [List.filter_cons, hp, HeaderMap.get?, hak, ih hnodup.2]
      · simp [List.filter_cons, hp, HeaderMap.get?, hak, ih hnodup.2]

theorem RemoveEmptyHeaders_headers_of_nodup (g : Game)
    (hnodup : (g.Headers.map Prod.fst).Nodup) :
    (RemoveEmptyHeaders g).Headers = g.Headers.filter (fun e => !isBlankValue e.2) := by
  rw [RemoveEmptyHeaders, RemoveEmptyHeadersIn_headers]
  apply List.filter_congr
  intro e he
  congr 1
  rw [Bool.eq_iff_iff]
  simp only [List.any_eq_true, Bool.and_eq_true, decide_eq_true_eq]
  constructor
  · rintro ⟨kv, hkv, hb, hk⟩
    have : kv = e := by
      have := List.inj_on_of_nodup_map hnodup hkv he hk
      exact this
    rw [← this]
    exact hb
  · intro hb
    exact ⟨e, he, hb, rfl⟩

theorem RemoveEmptyHeaders_no_blank (g : Game) :
    ∀ e ∈ (RemoveEmptyHeaders g).Headers, isBlankValue e.2 = false := by
  intro e he
  rw [RemoveEmptyHeaders, RemoveEmptyHeadersIn_headers, List.mem_filter] at he
  obtain ⟨hmem, hnot⟩ := he
  by_contra hb
  have hb' : isBlankValue e.2 = true := by simpa using hb
  have hany : g.Headers.any (fun kv => isBlankValue kv.2 && decide (kv.1 = e.1)) = true :=
    List.any_eq_true.2 ⟨e, hmem, by simp [hb']⟩
  rw [hany] at hnot
  exact Bool.noConfusion hnot

theorem foldl_delete_blank_of_no_blank (order : List (Str × Str))
    (h : ∀ kv ∈ order, isBlankValue kv.2 = false) (m : HeaderMap) :
    order.foldl (fun m kv => if isBlankValue kv.2 then HeaderMap.delete m kv.1 else m) m = m := by
  induction order with
  | nil => rfl
  | cons kv order ih =>
    rw [List.foldl_cons, h kv (List.mem_cons_self _ _)]
    simp only [Bool.false_eq_true, if_false]
    exact ih (fun x hx => h x (List.mem_cons_of_mem _ hx))

/-- C11: for a record whose tags form a map (one entry per name), `RemoveEmptyHeaders`,
in whatever order the loop visits the entries, leaves exactly the tags of the record
whose value is not made only of `?` and white space of the class `\s` (the empty value
is blank), each with its value; the result is a map again and the movetext is
unchanged. -/
theorem RemoveEmptyHeaders_restricts (g : Game) (order : List (Str × Str))
    (hperm : order.Perm g.Headers) (hnodup : (g.Headers.map Prod.fst).Nodup) :
    (∀ k v, HeaderMap.get? (RemoveEmptyHeadersIn order g).Headers k = some v ↔
        (HeaderMap.get? g.Headers k = some v ∧ isBlankValue v = false)) ∧
    ((RemoveEmptyHeadersIn order g).Headers.map Prod.fst).Nodup ∧
    (RemoveEmptyHeadersIn order g).Moves = g.Moves := by
  rw [RemoveEmptyHeadersIn_perm order g hperm]
  refine ⟨?_, ?_, rfl⟩
  · intro k v
    rw [RemoveEmptyHeaders_headers_of_nodup g hnodup,
      get?_filter_values (fun v => !isBlankValue v) g.Headers hnodup k]
    cases hg : HeaderMap.get? g.Headers k with
    | none => simp [Option.filter]
    | some w =>
      by_cases hw : isBlankValue w = true
      · have hf : Option.filter (fun v => !isBlankValue v) (some w) = none := by
          simp [Option.filter, hw]
        rw [hf]
        constructor
        · intro h
          cases h
        · rintro ⟨e, hv⟩
          have e' := Option.some.inj e
          subst e'
          rw [hw] at hv
          cases hv
      · have hf : Option.filter (fun v => !isBlankValue v) (some w) = some w := by
          simp [Option.filter, hw]
        rw [hf]
        constructor
        · intro e
          refine ⟨e, ?_⟩
          have e' := Option.some.inj e
          subst e'
          simpa using hw
        · exact fun h => h.1
  · rw [RemoveEmptyHeaders_headers_of_nodup g hnodup]
    exact hnodup.sublist ((List.filter_sublist _).map _)

/-- Witness for C11: of the tags `Event = ?`, `White = Tal`, `Site = ""`, visited in
the reverse order, `White` stays with its value and the movetext is unchanged. -/
theorem RemoveEmptyHeaders_restricts_witness :
    (HeaderMap.get?
        (RemoveEmptyHeadersIn
          [("Site".toList, []), ("White".toList, "Tal".toList), ("Event".toList, "?".toList)]
          { Headers :=
              [("Event".toList, "?".toList), ("White".toList, "Tal".toList), ("Site".toList, [])],
            Moves := "e4 ".toList }).Headers "White".toList = some "Tal".toList ↔
      (HeaderMap.get?
          [("Event".toList, "?".toList), ("White".toList, "Tal".toList), ("Site".toList, [])]
          "White".toList = some "Tal".toList ∧ isBlankValue "Tal".toList = false)) ∧
    (RemoveEmptyHeadersIn
        [("Site".toList, []), ("White".toList, "Tal".toList), ("Event".toList, "?".toList)]
        { Headers :=
            [("Event".toList, "?".toList), ("White".toList, "Tal".toList), ("Site".toList, [])],
          Moves := "e4 ".toList }).Moves = "e4 ".toList :=
  ⟨(RemoveEmptyHeaders_restricts
      { Headers :=
          [("Event".toList, "?".toList), ("White".toList, "Tal".toList), ("Site".toList, [])],
        Moves := "e4 ".toList }
      [("Site".toList, []), ("White".toList, "Tal".toList), ("Event".toList, "?".toList)]
      (by decide) (by decide)).1 "White".toList "Tal".toList,
   (RemoveEmptyHeaders_restricts
      { Headers :=
          [("Event".toList, "?".toList), ("White".toList, "Tal".toList), ("Site".toList, [])],
        Moves := "e4 ".toList }
      [("Site".toList, []), ("White".toList, "Tal".toList), ("Event".toList, "?".toList)]
      (by decide) (by decide)).2.2⟩

/-- C12: `RemoveEmptyHeaders` is idempotent: applied to its own result, in whatever
order the two loops visit the entries, it returns the record (tags and movetext) that
the first application returned. -/
theorem RemoveEmptyHeaders_idempotent (g : Game) (order₁ order₂ : List (Str × Str))
    (h₁ : order₁.Perm g.Headers)
    (h₂ : order₂.Perm (RemoveEmptyHeadersIn order₁ g).Headers) :
    RemoveEmptyHeadersIn order₂ (RemoveEmptyHeadersIn order₁ g) =
      RemoveEmptyHeadersIn order₁ g := by
  rw [RemoveEmptyHeadersIn_perm order₁ g h₁] at h₂ ⊢
  have hno : ∀ kv ∈ order₂, isBlankValue kv.2 = false := fun kv hkv =>
    RemoveEmptyHeaders_no_blank g kv (h₂.mem_iff.1 hkv)
  unfold RemoveEmptyHeadersIn
  rw [foldl_delete_blank_of_no_blank order₂ hno]

/-- Witness for C12: the record with the tags `Event = ?` and `White = Tal`. -/
theorem RemoveEmptyHeaders_idempotent_witness :
    RemoveEmptyHeadersIn [("White".toList, "Tal".toList)]
        (RemoveEmptyHeadersIn [("White".toList, "Tal".toList), ("Event".toList, "?".toList)]
          { Headers := [("Event".toList, "?".toList), ("White".toList, "Tal".toList)],
            Moves := "e4 ".toList }) =
      RemoveEmptyHeadersIn [("White".toList, "Tal".toList), ("Event".toList, "?".toList)]
        { Headers := [("Event".toList, "?".toList), ("White".toList, "Tal".toList)],
          Moves := "e4 ".toList } :=
  RemoveEmptyHeaders_idempotent
    { Headers := [("Event".toList, "?".toList), ("White".toList, "Tal".toList)],
      Moves := "e4 ".toList }
    [("White".toList, "Tal".toList), ("Event".toList, "?".toList)]
    [("White".toList, "Tal".toList)] (by decide) (by decide)

theorem get?_delete (m : HeaderMap) (f k : Str) :
    HeaderMap.get? (HeaderMap.delete m f) k = if k = f then none else HeaderMap.get? m k := by
  induction m with
  | nil => simp [HeaderMap.delete, HeaderMap.get?]
  | cons e m ih =>
    obtain ⟨a, b⟩ := e
    unfold HeaderMap.delete at ih ⊢
    by_cases haf : a = f
    · subst haf
      by_cases hka : k = a
      · subst hka
        simpa [List.filter_cons] using ih
      · have hak : ¬ a = k := fun e => hka e.symm
        simpa [List.filter_cons, HeaderMap.get?, hak, hka] using ih
    · by_cases hak : a = k
      · subst hak
        simp [List.filter_cons, haf, HeaderMap.get?]
      · simpa [List.filter_cons, haf, HeaderMap.get?, hak] using ih

theorem get?_foldl_delete (fields : List Str) (k : Str) :
    ∀ m : HeaderMap,
      HeaderMap.get? (fields.foldl HeaderMap.delete m) k =
        if k ∈ fields then none else HeaderMap.get? m k := by
  induction fields with
  | nil => intro m; simp
  | cons f fields ih =>
    intro m
    rw [List.foldl_cons, ih, get?_delete]
    by_cases hkf : k = f
    · simp [hkf]
    · simp [hkf]

theorem keys_foldl_delete (fields : List Str) :
    ∀ m : HeaderMap,
      (fields.foldl HeaderMap.delete m).map Prod.fst =
        (m.map Prod.fst).filter (fun k => decide (k ∉ fields)) := by
  induction fields with
  | nil => intro m; simp
  | cons f fields ih =>
    intro m
    rw [List.foldl_cons, ih, HeaderMap.delete, List.filter_map, List.filter_filter]
    · rw [List.filter_map]
      congr 1
      apply List.filter_congr
      intro e _
      by_cases hef : e.1 = f
      · simp [hef]
      · simp [hef]

/-- C13: after `RemoveFields`, a listed name has no tag, a name that is not listed has
the tag and the value it had, the names of the tags are those of the record that are
not listed, and the movetext is unchanged; a listed name that the record does not have
changes nothing. -/
theorem RemoveFields_frame (g : Game) (fields : List Str) :
    (∀ k, HeaderMap.get? (RemoveFields g fields).Headers k =
        if k ∈ fields then none else HeaderMap.get? g.Headers k) ∧
    (RemoveFields g fields).Headers.map Prod.fst =
        (g.Headers.map Prod.fst).filter (fun k => decide (k ∉ fields)) ∧
    (RemoveFields g fields).Moves = g.Moves :=
  ⟨fun k => get?_foldl_delete fields k g.Headers, keys_foldl_delete fields g.Headers, rfl⟩

theorem RemoveGamesWithoutPlayers_sublist (games : List Game) :
    (RemoveGamesWithoutPlayers games).Sublist games := by
  induction games with
  | nil => simp [RemoveGamesWithoutPlayers]
  | cons g games ih =>
    simp only [RemoveGamesWithoutPlayers]
    split_ifs
    · exact ih.cons _
    · exact ih.cons₂ _

theorem FilterGamesByYearRange_sublist (games : List Game) (before after : Int)
    (dropYearless : Bool) :
    (FilterGamesByYearRange games before after dropYearless).Sublist games := by
  induction games with
  | nil => simp [FilterGamesByYearRange]
  | cons g games ih =>
    simp only [FilterGamesByYearRange]
    split_ifs
    · exact ih.cons _
    · exact ih.cons _
    · exact ih.cons₂ _
    · exact ih.cons _

theorem FilterGamesByEloRange_sublist (games : List Game) (below above : Int)
    (dropEloless : Bool) :
    (FilterGamesByEloRange games below above dropEloless).Sublist games := by
  induction games with
  | nil => simp [FilterGamesByEloRange]
  | cons g games ih =>
    simp only [FilterGamesByEloRange]
    split_ifs
    · exact ih.cons _
    · exact ih.cons₂ _

/-- C16: for every sequence of records and every choice of options, the results of
`RemoveGamesWithoutPlayers`, `FilterGamesByYearRange` and `FilterGamesByEloRange` are
sublists of the input: the surviving records are records of the input, unchanged and
in their order; none is added, repeated or moved. -/
theorem filters_only_remove (games : List Game) (before after below above : Int)
    (dropYearless dropEloless : Bool) :
    (RemoveGamesWithoutPlayers games).Sublist games ∧
    (FilterGamesByYearRange games before after dropYearless).Sublist games ∧
    (FilterGamesByEloRange games below above dropEloless).Sublist games :=
  ⟨RemoveGamesWithoutPlayers_sublist games,
    FilterGamesByYearRange_sublist games before after dropYearless,
    FilterGamesByEloRange_sublist games below above dropEloless⟩

theorem isBlankValue_getD_of_no_blank (m : HeaderMap) (k : Str)
    (h : ∀ e ∈ m, isBlankValue e.2 = false) :
    isBlankValue (HeaderMap.getD m k) = !(HeaderMap.get? m k).isSome := by
  unfold HeaderMap.getD
  cases hg : HeaderMap.get? m k with
  | none => rfl
  | some v =>
    have := h (k, v) (mem_of_get?_eq_some m k v hg)
    simpa using this

theorem RemoveGamesWithoutPlayers_of_no_blank (games : List Game)
    (h : ∀ g ∈ games, ∀ e ∈ g.Headers, isBlankValue e.2 = false) :
    RemoveGamesWithoutPlayers games =
      games.filter (fun g =>
        (HeaderMap.get? g.Headers "White".toList).isSome ||
          (HeaderMap.get? g.Headers "Black".toList).isSome) := by
  induction games with
  | nil => rfl
  | cons g games ih =>
    have hg := h g (List.mem_cons_self _ _)
    rw [RemoveGamesWithoutPlayers_cons, ih (fun x hx => h x (List.mem_cons_of_mem _ hx)),
      isBlankValue_getD_of_no_blank _ _ hg, isBlankValue_getD_of_no_blank _ _ hg,
      List.filter_cons]
    cases (HeaderMap.get? g.Headers "White".toList).isSome <;>
      cases (HeaderMap.get? g.Headers "Black".toList).isSome <;> simp

/-- C20: on a sequence of records to each of which `RemoveEmptyHeaders` has been
applied, `RemoveGamesWithoutPlayers` is the presence test: it drops the records that
have neither a `White` nor a `Black` tag and keeps all the others, in their order.
(By `RemoveEmptyHeadersIn_perm` the order in which the cleanup visits the tags of a
record does not matter.) -/
theorem RemoveGamesWithoutPlayers_after_cleanup (games : List Game) :
    RemoveGamesWithoutPlayers (games.map RemoveEmptyHeaders) =
      (games.map RemoveEmptyHeaders).filter (fun g =>
        (HeaderMap.get? g.Headers "White".toList).isSome ||
          (HeaderMap.get? g.Headers "Black".toList).isSome) := by
  apply RemoveGamesWithoutPlayers_of_no_blank
  intro g hg
  obtain ⟨g0, -, rfl⟩ := List.mem_map.1 hg
  exact RemoveEmptyHeaders_no_blank g0

theorem addHeader_games (st : ParseState) (line : Str) :
    (addHeader st line).games = st.games := by
  unfold addHeader
  split <;> rfl

theorem parseLine_games_of_no_moves (rc : Bool) (st : ParseState) (raw : Str)
    (h : st.currentGame.Moves = []) : (parseLine rc st raw).games = st.games := by
  unfold parseLine
  simp only
  split_ifs
  · rw [addHeader_games, finalizeCurrent_of_nil rc st h]
  · rfl
  · rfl

/-- C19: every record returned by `ParsePGN`, except possibly the last one, has
movetext that is not empty.  The loop emits no record while the current record has no
movetext, so the tags of a block without movetext go into the record of the block
that follows: the text with the tag `A`, an empty line, the tag `B` and the move `e4`
gives one record with both tags. -/
theorem ParsePGN_moves_before_last (content : Str) (rc : Bool) :
    (∀ g ∈ (ParsePGN content rc).dropLast, g.Moves ≠ []) ∧
    (∀ (st : ParseState) (raw : Str), st.currentGame.Moves = [] →
      (parseLine rc st raw).games = st.games) ∧
    ParsePGN "[A \"x\"]\n\n[B \"y\"]\ne4".toList rc =
      [{ Headers := [("A".toList, "x".toList), ("B".toList, "y".toList)],
         Moves := "e4 ".toList }] := by
  refine ⟨?_, fun st raw h => parseLine_games_of_no_moves rc st raw h, by cases rc <;> decide⟩
  have hinv : MovesInv ((scanLines content).foldl (parseLine rc)
      { games := [], currentGame := newGame }) :=
    foldl_parseLine_invariant MovesInv rc (MovesInv_parseLine rc) _ _
      ⟨by simp, Or.inl rfl⟩
  intro g hg
  unfold ParsePGN finishParse at hg
  split_ifs at hg with hc
  · rw [List.dropLast_concat] at hg
    exact hinv.1 g hg
  · exact hinv.1 g (List.dropLast_subset _ hg)

/-- Witness for C19: of the two records parsed from the tag `A`, the move `e4` and the
tag `B`, the first has movetext. -/
theorem ParsePGN_moves_before_last_witness :
    ({ Headers := [("A".toList, "x".toList)], Moves := "e4 ".toList } : Game) ∈
      (ParsePGN "[A \"x\"]\ne4\n[B \"y\"]".toList false).dropLast ∧
    ("e4 ".toList : Str) ≠ [] :=
  ⟨by decide,
    (ParsePGN_moves_before_last "[A \"x\"]\ne4\n[B \"y\"]".toList false).1
      { Headers := [("A".toList, "x".toList)], Moves := "e4 ".toList } (by decide)⟩

/-! ## The pipeline of `main` -/

theorem not_mem_keys_of_get?_eq_none (m : HeaderMap) (k : Str)
    (h : HeaderMap.get? m k = none) : k ∉ m.map Prod.fst := by
  induction m with
  | nil => simp
  | cons e m ih =>
    obtain ⟨a, b⟩ := e
    by_cases hak : a = k
    · simp [HeaderMap.get?, hak] at h
    · simp only [HeaderMap.get?, if_neg hak] at h
      intro hm
      rcases List.mem_cons.1 hm with e | e
      · exact hak e.symm
      · exact ih h e

theorem get?_filter_eq_none (p : Str × Str → Bool) (m : HeaderMap) (k : Str)
    (h : HeaderMap.get? m k = none) : HeaderMap.get? (m.filter p) k = none := by
  apply get?_eq_none_of_not_mem_keys
  intro hm
  apply not_mem_keys_of_get?_eq_none m k h
  obtain ⟨e, he, hek⟩ := List.mem_map.1 hm
  exact List.mem_map.2 ⟨e, List.mem_of_mem_filter he, hek⟩

theorem get?_RemoveEmptyHeaders_eq_none (g : Game) (k : Str)
    (h : HeaderMap.get? g.Headers k = none) :
    HeaderMap.get? (RemoveEmptyHeaders g).Headers k = none := by
  rw [RemoveEmptyHeaders, RemoveEmptyHeadersIn_headers]
  exact get?_filter_eq_none _ _ _ h

theorem stageElo_sublist (opts : Opts) (games : List Game) :
    (stageElo opts games).Sublist games := by
  unfold stageElo
  split_ifs
  · exact FilterGamesByEloRange_sublist _ _ _ _
  · exact List.Sublist.refl _

theorem stageYear_sublist (opts : Opts) (games : List Game) :
    (stageYear opts games).Sublist games := by
  unfold stageYear
  split_ifs
  · exact FilterGamesByYearRange_sublist _ _ _ _
  · exact List.Sublist.refl _

theorem stagePlayers_sublist (opts : Opts) (games : List Game) :
    (stagePlayers opts games).Sublist games := by
  unfold stagePlayers
  split_ifs
  · exact RemoveGamesWithoutPlayers_sublist _
  · exact List.Sublist.refl _

theorem runStages_sublist (opts : Opts) (parsed : List Game) :
    (runStages opts parsed).1.Sublist (stageEmpty opts (stageFields opts parsed)) :=
  ((stageElo_sublist opts _).trans (stageYear_sublist opts _)).trans
    (stagePlayers_sublist opts _)

theorem stageEmpty_get?_eq_none (opts : Opts) (games : List Game) (k : Str)
    (h : ∀ g ∈ games, HeaderMap.get? g.Headers k = none) :
    ∀ g ∈ stageEmpty opts games, HeaderMap.get? g.Headers k = none := by
  unfold stageEmpty
  split_ifs
  · intro g hg
    obtain ⟨g0, hg0, rfl⟩ := List.mem_map.1 hg
    exact get?_RemoveEmptyHeaders_eq_none g0 k (h g0 hg0)
  · exact h

/-- C17, counterexample: with no flag given, the game parsed from the tags `White` and
`ECO` and the move `e4` is handed to the writer with its `ECO` tag: the field removal
of `main` runs only when the option names a field. -/
theorem runStages_keeps_ECO_by_default :
    defaultOpts.RemoveFields = [] ∧
    (runStages defaultOpts
        (ParsePGN "[White \"Tal\"]\n[ECO \"B20\"]\n1. e4".toList false)).1 =
      [{ Headers := [("White".toList, "Tal".toList), ("ECO".toList, "B20".toList)],
         Moves := "1. e4 ".toList }] := by
  decide

/-- C17, amended: when the caller names at least one field, no record that `main`
hands to the writer has a tag `ECO`, `PlyCount` or `Variation`, nor a tag with a name
given by the caller, whatever the parsed sequence and the other options are. -/
theorem runStages_removes_default_fields (opts : Opts) (parsed : List Game)
    (hnames : opts.RemoveFields ≠ []) :
    ∀ g ∈ (runStages opts parsed).1,
      HeaderMap.get? g.Headers "ECO".toList = none ∧
      HeaderMap.get? g.Headers "PlyCount".toList = none ∧
      HeaderMap.get? g.Headers "Variation".toList = none ∧
      ∀ f ∈ opts.RemoveFields, HeaderMap.get? g.Headers f = none := by
  have hfields : ∀ k, k ∈ ["ECO".toList, "PlyCount".toList, "Variation".toList] ++
      opts.RemoveFields → ∀ g ∈ stageFields opts parsed, HeaderMap.get? g.Headers k = none := by
    intro k hk g hg
    unfold stageFields at hg
    rw [if_pos (List.length_pos.2 hnames)] at hg
    obtain ⟨g0, -, rfl⟩ := List.mem_map.1 hg
    unfold RemoveFields
    simp only
    rw [get?_foldl_delete, if_pos hk]
  intro g hg
  have hg2 := (runStages_sublist opts parsed).subset hg
  have key : ∀ k, k ∈ ["ECO".toList, "PlyCount".toList, "Variation".toList] ++
      opts.RemoveFields → HeaderMap.get? g.Headers k = none := fun k hk =>
    stageEmpty_get?_eq_none opts _ k (hfields k hk) g hg2
  refine ⟨key _ (by simp), key _ (by simp), key _ (by simp), ?_⟩
  intro f hf
  exact key f (List.mem_append_right _ hf)

/-- Witness for C17, amended: with the field `Site` named by the caller, the game
parsed from the tags `White`, `ECO`, `Site` and the move `e4` reaches the writer with
the tag `White` alone. -/
theorem runStages_removes_default_fields_witness :
    ({ Headers := [("White".toList, "Tal".toList)], Moves := "1. e4 ".toList } : Game) ∈
      (runStages { defaultOpts with RemoveFields := ["Site".toList] }
        (ParsePGN "[White \"Tal\"]\n[ECO \"B20\"]\n[Site \"x\"]\n1. e4".toList false)).1 ∧
    (HeaderMap.get? [("White".toList, "Tal".toList)] "ECO".toList = none ∧
      HeaderMap.get? [("White".toList, "Tal".toList)] "PlyCount".toList = none ∧
      HeaderMap.get? [("White".toList, "Tal".toList)] "Variation".toList = none ∧
      ∀ f ∈ ["Site".toList], HeaderMap.get? [("White".toList, "Tal".toList)] f = none) :=
  ⟨by decide,
    runStages_removes_default_fields { defaultOpts with RemoveFields := ["Site".toList] }
      (ParsePGN "[White \"Tal\"]\n[ECO \"B20\"]\n[Site \"x\"]\n1. e4".toList false)
      (by decide)
      { Headers := [("White".toList, "Tal".toList)], Moves := "1. e4 ".toList } (by decide)⟩

theorem stageFields_length (opts : Opts) (games : List Game) :
    (stageFields opts games).length = games.length := by
  unfold stageFields
  split_ifs <;> simp

theorem stageEmpty_length (opts : Opts) (games : List Game) :
    (stageEmpty opts games).length = games.length := by
  unfold stageEmpty
  split_ifs <;> simp

/-- The numbers that `main` prints, against what each stage removes: the count printed
after the player stage and the count printed after the Elo stage are the numbers of
records that these stages removed; the count printed after the year stage is the
number of records that the player stage and the year stage removed together. -/
theorem runStages_report (opts : Opts) (parsed : List Game) :
    (runStages opts parsed).2.withoutPlayers =
      (if !opts.KeepPlayerless then
        some (((stageEmpty opts (stageFields opts parsed)).length : Int) -
          (stagePlayers opts (stageEmpty opts (stageFields opts parsed))).length)
       else none) ∧
    (runStages opts parsed).2.yearRange =
      (if yearStageRuns opts then
        some ((((stageEmpty opts (stageFields opts parsed)).length : Int) -
            (stagePlayers opts (stageEmpty opts (stageFields opts parsed))).length) +
          (((stagePlayers opts (stageEmpty opts (stageFields opts parsed))).length : Int) -
            (stageYear opts
              (stagePlayers opts (stageEmpty opts (stageFields opts parsed)))).length))
       else none) ∧
    (runStages opts parsed).2.eloRange =
      (if eloStageRuns opts then
        some (((stageYear opts
            (stagePlayers opts (stageEmpty opts (stageFields opts parsed)))).length : Int) -
          (stageElo opts (stageYear opts
            (stagePlayers opts (stageEmpty opts (stageFields opts parsed))))).length)
       else none) := by
  have hlen : ((stageEmpty opts (stageFields opts parsed)).length : Int) = parsed.length := by
    rw [stageEmpty_length, stageFields_length]
  refine ⟨?_, ?_, rfl⟩
  · simp only [runStages, hlen]
  · simp only [runStages, hlen]
    split_ifs
    · congr 1
      omega
    · rfl

/-- C18: with the flag `--filter-before 2000`, on the two games parsed from the text
below (the first without player tags, both dated 2010), the player stage removes one
game and `main` prints 1 for it; the year stage then receives one game and removes
none, and `main` prints 1 for the year stage as well: `gameCount` still holds the
count of parsed games when the year count is computed. -/
theorem runStages_year_count_includes_playerless :
    (runStages { defaultOpts with FilterBefore := 2000 }
      (ParsePGN
        "[Date \"2010.05.01\"]\n1. e4\n[White \"Tal\"]\n[Date \"2010.05.01\"]\n1. d4".toList
        false)).2 =
      { parsed := 2, withoutPlayers := some 1, yearRange := some 1, eloRange := none,
        saved := 1 } ∧
    (stagePlayers { defaultOpts with FilterBefore := 2000 }
      (stageEmpty { defaultOpts with FilterBefore := 2000 }
        (stageFields { defaultOpts with FilterBefore := 2000 }
          (ParsePGN
            "[Date \"2010.05.01\"]\n1. e4\n[White \"Tal\"]\n[Date \"2010.05.01\"]\n1. d4".toList
            false)))).length = 1 ∧
    (FilterGamesByYearRange
      (stagePlayers { defaultOpts with FilterBefore := 2000 }
        (stageEmpty { defaultOpts with FilterBefore := 2000 }
          (stageFields { defaultOpts with FilterBefore := 2000 }
            (ParsePGN
              "[Date \"2010.05.01\"]\n1. e4\n[White \"Tal\"]\n[Date \"2010.05.01\"]\n1. d4".toList
              false))))
      2000 0 false).length = 1 := by
  decide

/-! ## Concatenation of files -/

theorem rawLines_eq_nil (s : Str) (h : rawLines s = []) : s = [] := by
  cases s with
  | nil => rfl
  | cons c cs =>
    rw [rawLines] at h
    split_ifs at h
    cases hr : rawLines cs with
    | nil => rw [hr] at h; cases h
    | cons l ls => rw [hr] at h; cases h

theorem rawLines_concat_newline_blank (s : Str) :
    ∃ k, rawLines (s ++ ['\n']) = rawLines s ++ List.replicate k [] := by
  induction s with
  | nil => exact ⟨1, by simp [rawLines]⟩
  | cons c cs ih =>
    obtain ⟨k, hk⟩ := ih
    by_cases hc : c = '\n'
    · refine ⟨k, ?_⟩
      rw [List.cons_append, rawLines, if_pos hc, hk, rawLines, if_pos hc]
      rfl
    · cases hr : rawLines cs with
      | nil =>
        have hcs : cs = [] := rawLines_eq_nil cs hr
        subst hcs
        exact ⟨0, by simp [rawLines, hc]⟩
      | cons l ls =>
        refine ⟨k, ?_⟩
        rw [List.cons_append, rawLines, if_neg hc, hk, hr, rawLines, if_neg hc, hr]
        rfl

theorem foldl_parseLine_blank (rc : Bool) (k : Nat) (st : ParseState) :
    ((List.replicate k ([] : Str)).map dropCR).foldl (parseLine rc) st = st := by
  induction k with
  | zero => rfl
  | succ k ih =>
    rw [List.replicate_succ, List.map_cons, List.foldl_cons]
    have : parseLine rc st (dropCR []) = st := by
      unfold parseLine
      simp [dropCR, TrimSpace, HasPrefix]
    rw [this, ih]

theorem foldl_takeWhile_append_blank (rc : Bool) (ls : List Str) (k : Nat) :
    ∀ st : ParseState,
      (((ls ++ List.replicate k []).takeWhile
          (fun l => decide (utf8Len l < MaxScanTokenSize))).map dropCR).foldl (parseLine rc) st =
        ((ls.takeWhile (fun l => decide (utf8Len l < MaxScanTokenSize))).map
          dropCR).foldl (parseLine rc) st := by
  induction ls with
  | nil =>
    intro st
    have hall : (List.replicate k ([] : Str)).takeWhile
        (fun l => decide (utf8Len l < MaxScanTokenSize)) = List.replicate k [] := by
      rw [List.takeWhile_eq_self_iff]
      intro x hx
      rw [(List.mem_replicate.1 hx).2]
      decide
    rw [List.nil_append, hall, foldl_parseLine_blank]
    rfl
  | cons l ls ih =>
    intro st
    by_cases hl : utf8Len l < MaxScanTokenSize
    · rw [List.cons_append, List.takeWhile_cons_of_pos (by simpa using hl),
        List.takeWhile_cons_of_pos (by simpa using hl)]
      simp only [List.map_cons, List.foldl_cons]
      exact ih _
    · rw [List.cons_append, List.takeWhile_cons_of_neg (by simpa using hl),
        List.takeWhile_cons_of_neg (by simpa using hl)]

theorem ParsePGN_append_newline (s : Str) (rc : Bool) :
    ParsePGN (s ++ ['\n']) rc = ParsePGN s rc := by
  obtain ⟨k, hk⟩ := rawLines_concat_newline_blank s
  unfold ParsePGN scanLines
  rw [hk, foldl_takeWhile_append_blank]

/-- C15: for all file contents `f1` and `f2` and either value of `removeComments`,
parsing the text that `concatenatePGNFiles` builds from the two files gives the record
sequence that `ParsePGN` gives on `f1`, two newlines and `f2`. -/
theorem ParsePGN_concatenatePGNFiles (f1 f2 : Str) (removeComments : Bool) :
    ParsePGN (concatenatePGNFiles [f1, f2]) removeComments =
      ParsePGN (f1 ++ ['\n', '\n'] ++ f2) removeComments := by
  have h : concatenatePGNFiles [f1, f2] = ((f1 ++ ['\n', '\n'] ++ f2) ++ ['\n']) ++ ['\n'] := by
    simp [concatenatePGNFiles]
  rw [h, ParsePGN_append_newline, ParsePGN_append_newline]

/-! ## Writing and parsing again -/

theorem headerLine_eq (k v : Str) : headerLine k v = tagLine (k, v) ++ ['\n'] := by
  simp [headerLine, tagLine]

theorem saveGame_eq (og : List (Str × Str) × Game) (isLast : Bool) :
    saveGame og.1 og.2 isLast =
      textOfLines (gameLines og) ++ (if isLast then [] else ['\n']) := by
  have h : ∀ o : List (Str × Str),
      (o.map (fun kv => headerLine kv.1 kv.2)).flatten = textOfLines (o.map tagLine) := by
    intro o
    induction o with
    | nil => rfl
    | cons kv o ih =>
      rw [List.map_cons, List.flatten_cons, ih, headerLine_eq, List.map_cons, textOfLines_cons]
      simp
  unfold saveGame gameLines
  rw [h]
  simp [textOfLines]

theorem textOfLines_append (l₁ l₂ : List Str) :
    textOfLines (l₁ ++ l₂) = textOfLines l₁ ++ textOfLines l₂ := by
  simp [textOfLines]

theorem SavePGN_eq_textOfLines (ogs : List (List (Str × Str) × Game)) :
    SavePGN ogs = textOfLines (saveLines ogs) := by
  induction ogs with
  | nil => rfl
  | cons og ogs ih =>
    cases ogs with
    | nil =>
      rw [SavePGN, saveLines, saveGame_eq]
      simp
    | cons og' rest =>
      rw [SavePGN, saveLines, saveGame_eq, ih, textOfLines_append, textOfLines_append]
      simp [textOfLines]

theorem tagLine_no_newline_savable (nv : Str × Str) (hn : SavableName nv.1)
    (hv : SavableValue nv.2) : '\n' ∉ tagLine nv := by
  intro h
  simp only [tagLine, List.mem_append, List.mem_cons, List.mem_singleton] at h
  rcases h with (((h | h) | h) | h) | h
  · revert h; decide
  · exact hn.2.1 h
  · revert h; simp
  · exact hv.1 h
  · revert h; simp

theorem Trim_tagLine_savable (nv : Str × Str) (hn : SavableName nv.1) :
    Trim (tagLine nv) ['[', ']'] = nv.1 ++ [' ', '"'] ++ nv.2 ++ ['"'] := by
  unfold Trim
  rw [tagLine_eq]
  apply trim_wrapped
  · intro x hx
    have : x = '[' := by simpa using hx
    subst this
    decide
  · intro x hx
    have : x = ']' := by simpa using hx
    subst this
    decide
  · intro x hx
    cases hn1 : nv.1 with
    | nil =>
      rw [hn1] at hx
      have : x = ' ' := by simpa using hx.symm
      subst this
      decide
    | cons c n =>
      rw [hn1] at hx
      have hxc : x = c := by simpa using hx.symm
      subst hxc
      have h1 : x ≠ '[' := by
        intro e
        apply hn.2.2.1
        rw [hn1, e]
        rfl
      have h2 : x ≠ ']' := by
        intro e
        apply hn.2.2.2
        rw [hn1, e]
        rfl
      simp [h1, h2]
  · intro x hx
    rw [List.getLast?_append] at hx
    have : x = '"' := by simpa using hx.symm
    subst this
    decide

theorem SplitN2_header_savable (n v : Str) (hn : ' ' ∉ n) :
    SplitN2 (n ++ [' ', '"'] ++ v ++ ['"']) ' ' = [n, ['"'] ++ v ++ ['"']] := by
  have hall : ∀ y ∈ n, (fun c : Char => c != ' ') y = true := by
    intro y hy
    have : y ≠ ' ' := fun e => hn (e ▸ hy)
    simpa using this
  have hrw : n ++ [' ', '"'] ++ v ++ ['"'] = n ++ ' ' :: (['"'] ++ v ++ ['"']) := by simp
  unfold SplitN2
  rw [hrw, if_pos (by simp), takeWhile_append_cons_of_all _ _ _ _ hall (by decide),
    dropWhile_append_of_all _ _ _ hall, List.dropWhile_cons_of_neg (by decide)]
  rfl

theorem Trim_quoted_savable (v : Str) (hv : SavableValue v) :
    Trim (['"'] ++ v ++ ['"']) ['"'] = v := by
  unfold Trim
  apply trim_wrapped
  · intro x hx
    have : x = '"' := by simpa using hx
    subst this
    decide
  · intro x hx
    have : x = '"' := by simpa using hx
    subst this
    decide
  · intro x hx
    have h1 : x ≠ '"' := fun e => hv.2.1 (e ▸ hx)
    simp [h1]
  · intro x hx
    have h1 : x ≠ '"' := fun e => hv.2.2 (e ▸ hx)
    simp [h1]

theorem parseLine_tagLine_savable (rc : Bool) (st : ParseState) (nv : Str × Str)
    (hn : SavableName nv.1) (hv : SavableValue nv.2) :
    parseLine rc st (dropCR (tagLine nv)) =
      { games := (finalizeCurrent rc st).games,
        currentGame :=
          { Headers := HeaderMap.set (finalizeCurrent rc st).currentGame.Headers nv.1 nv.2,
            Moves := (finalizeCurrent rc st).currentGame.Moves } } := by
  unfold parseLine
  simp only
  rw [dropCR_tagLine, TrimSpace_tagLine, if_pos (HasPrefix_tagLine nv)]
  unfold addHeader
  rw [Trim_tagLine_savable nv hn, SplitN2_header_savable nv.1 nv.2 hn.1]
  simp only
  rw [Trim_quoted_savable nv.2 hv]

theorem foldl_tags_savable (rc : Bool) (tags : List (Str × Str))
    (hvalid : ∀ nv ∈ tags, SavableName nv.1 ∧ SavableValue nv.2) :
    ∀ st : ParseState, st.currentGame.Moves = [] →
      ((tags.map tagLine).map dropCR).foldl (parseLine rc) st =
        { games := st.games,
          currentGame :=
            { Headers := tags.foldl (fun m nv => HeaderMap.set m nv.1 nv.2)
                st.currentGame.Headers,
              Moves := [] } } := by
  induction tags with
  | nil =>
    intro st h
    cases st with
    | mk games cur =>
      cases cur with
      | mk hs ms =>
        simp only at h
        subst h
        rfl
  | cons nv tags ih =>
    intro st h
    have hnv := hvalid nv (List.mem_cons_self _ _)
    simp only [List.map_cons, List.foldl_cons]
    rw [parseLine_tagLine_savable rc st nv hnv.1 hnv.2, finalizeCurrent_of_nil rc st h]
    exact ih (fun x hx => hvalid x (List.mem_cons_of_mem _ hx))
      { games := st.games,
        currentGame :=
          { Headers := HeaderMap.set st.currentGame.Headers nv.1 nv.2,
            Moves := st.currentGame.Moves } } h

theorem TrimSpace_idem (m : Str) : TrimSpace (TrimSpace m) = TrimSpace m := by
  apply TrimSpace_eq_self
  · intro x hx
    by_contra hsp
    exact trim_head_not isSpace m x (by simpa using hsp) hx
  · intro x hx
    by_contra hsp
    exact trim_last_not isSpace m x (by simpa using hsp) hx

theorem validMoveLine_TrimSpace (m : Str) (hne : TrimSpace m ≠ [])
    (hnl : '\n' ∉ TrimSpace m) (hhead : (TrimSpace m).head? ≠ some '[') :
    ValidMoveLine (TrimSpace m) := by
  cases ht : TrimSpace m with
  | nil => exact absurd ht hne
  | cons c cs =>
    have hc : isSpace c = false := by
      by_contra hsp
      exact trim_head_not isSpace m c (by simpa using hsp) (by
        show (TrimSpace m).head? = some c
        rw [ht]
        rfl)
    rw [ht] at hnl hhead
    refine ⟨hnl, ⟨c, List.mem_cons_self _ _, hc⟩, ?_⟩
    rw [List.dropWhile_cons_of_neg (by simp [hc])]
    exact hhead

theorem parseLine_blank (rc : Bool) (st : ParseState) : parseLine rc st (dropCR []) = st := by
  unfold parseLine
  simp [dropCR, TrimSpace, HasPrefix]

theorem set_ne_nil (m : HeaderMap) (k v : Str) : HeaderMap.set m k v ≠ [] := by
  cases m with
  | nil => simp [HeaderMap.set]
  | cons e m =>
    obtain ⟨a, b⟩ := e
    simp only [HeaderMap.set]
    split_ifs <;> simp

theorem foldl_set_ne_nil (tags : List (Str × Str)) :
    ∀ m : HeaderMap, m ≠ [] →
      tags.foldl (fun m nv => HeaderMap.set m nv.1 nv.2) m ≠ [] := by
  induction tags with
  | nil => intro m h; exact h
  | cons nv tags ih =>
    intro m _
    exact ih _ (set_ne_nil m nv.1 nv.2)

theorem readBack_headers_ne_nil (og : List (Str × Str) × Game) (h : og.1 ≠ []) :
    (readBack og).Headers ≠ [] := by
  unfold readBack
  cases ho : og.1 with
  | nil => exact absurd ho h
  | cons nv tags =>
    simp only [List.foldl_cons]
    exact foldl_set_ne_nil tags _ (set_ne_nil _ _ _)

theorem foldl_gameLines (og : List (Str × Str) × Game) (st : ParseState)
    (hsav : ∀ kv ∈ og.1, SavableName kv.1 ∧ SavableValue kv.2)
    (hnl : '\n' ∉ TrimSpace og.2.Moves) (hhead : (TrimSpace og.2.Moves).head? ≠ some '[')
    (hst : st.currentGame = newGame ∨ st.currentGame.Moves ≠ [])
    (hA : og.1 ≠ [] ∨ (st.currentGame = newGame ∧ TrimSpace og.2.Moves ≠ [])) :
    ((gameLines og).map dropCR).foldl (parseLine false) st =
      { games := (finalizeCurrent false st).games, currentGame := readBack og } := by
  have hF : (finalizeCurrent false st).currentGame = newGame := by
    rcases hst with h | h
    · rw [finalizeCurrent_of_nil false st (by rw [h]; rfl)]
      exact h
    · unfold finalizeCurrent
      rw [if_pos (List.length_pos.2 h)]
  have hmove : ∀ st' : ParseState, TrimSpace og.2.Moves ≠ [] →
      parseLine false st' (dropCR (TrimSpace og.2.Moves)) =
        appendMoves st' (TrimSpace og.2.Moves) := by
    intro st' hne
    rw [parseLine_moveLine false st' _ (validMoveLine_TrimSpace _ hne hnl hhead),
      TrimSpace_idem]
  unfold gameLines readBack
  rw [List.map_append, List.foldl_append]
  cases ho : og.1 with
  | nil =>
    rcases hA with h | ⟨hnew, hne⟩
    · exact absurd ho h
    · simp only [List.map_nil, List.foldl_nil, List.map_cons, List.foldl_cons]
      rw [hmove st hne, if_neg hne, finalizeCurrent_of_nil false st (by rw [hnew]; rfl)]
      unfold appendMoves
      rw [hnew]
      simp [newGame]
  | cons nv tags =>
    rw [ho] at hsav
    have hnv := hsav nv (List.mem_cons_self _ _)
    simp only [List.map_cons, List.foldl_cons, List.map_nil, List.foldl_nil]
    rw [parseLine_tagLine_savable false st nv hnv.1 hnv.2, hF,
      foldl_tags_savable false tags (fun x hx => hsav x (List.mem_cons_of_mem _ hx)) _ rfl]
    by_cases hne : TrimSpace og.2.Moves = []
    · rw [if_pos hne, hne, parseLine_blank]
      simp [newGame]
    · rw [if_neg hne, hmove _ hne]
      simp [appendMoves, newGame]

theorem foldl_saveLines (ogs : List (List (Str × Str) × Game)) :
    ∀ st : ParseState, st.currentGame.Moves ≠ [] →
      (∀ og ∈ ogs, SavableGame og ∧ og.1 ≠ []) →
      (∀ og ∈ ogs.dropLast, TrimSpace og.2.Moves ≠ []) →
      finishParse (((saveLines ogs).map dropCR).foldl (parseLine false) st) =
        st.games ++ [st.currentGame] ++ ogs.map readBack := by
  induction ogs with
  | nil =>
    intro st h _ _
    simp [saveLines, finishParse, List.length_pos.2 h]
  | cons og rest ih =>
    intro st h hall hmoves
    obtain ⟨hsav, hne⟩ := hall og (List.mem_cons_self _ _)
    obtain ⟨-, -, hnames, hnl, hhead, -, -⟩ := hsav
    have hfin : (finalizeCurrent false st).games = st.games ++ [st.currentGame] := by
      simp only [finalizeCurrent, if_pos (List.length_pos.2 h)]
      simp
    cases rest with
    | nil =>
      rw [saveLines, foldl_gameLines og st hnames hnl hhead (Or.inr h) (Or.inl hne), hfin]
      unfold finishParse
      rw [if_pos (Or.inr (List.length_pos.2 (readBack_headers_ne_nil og hne)))]
      simp
    | cons og' rest' =>
      have hmv : TrimSpace og.2.Moves ≠ [] := hmoves og (by simp [List.dropLast])
      rw [saveLines, List.map_append, List.map_append, List.foldl_append, List.foldl_append,
        foldl_gameLines og st hnames hnl hhead (Or.inr h) (Or.inl hne), hfin]
      simp only [List.map_cons, List.map_nil, List.foldl_cons, List.foldl_nil]
      rw [parseLine_blank,
        ih _ (by simp [readBack, hmv])
          (fun x hx => hall x (List.mem_cons_of_mem _ hx))
          (fun x hx => hmoves x (by
            rw [List.dropLast_cons₂]
            exact List.mem_cons_of_mem _ hx))]
      simp

theorem mem_saveLines (ogs : List (List (Str × Str) × Game)) :
    ∀ l ∈ saveLines ogs, l = [] ∨ ∃ og ∈ ogs, l ∈ gameLines og := by
  induction ogs with
  | nil => intro l hl; simp [saveLines] at hl
  | cons og rest ih =>
    intro l hl
    cases rest with
    | nil =>
      rw [saveLines] at hl
      exact Or.inr ⟨og, List.mem_cons_self _ _, hl⟩
    | cons og' rest' =>
      rw [saveLines] at hl
      rcases List.mem_append.1 hl with h | h
      · rcases List.mem_append.1 h with h | h
        · exact Or.inr ⟨og, List.mem_cons_self _ _, h⟩
        · exact Or.inl (List.mem_singleton.1 h)
      · rcases ih l h with h | ⟨x, hx, hl'⟩
        · exact Or.inl h
        · exact Or.inr ⟨x, List.mem_cons_of_mem _ hx, hl'⟩

theorem scanLines_SavePGN (ogs : List (List (Str × Str) × Game))
    (hsav : ∀ og ∈ ogs, SavableGame og) :
    scanLines (SavePGN ogs) = (saveLines ogs).map dropCR := by
  rw [SavePGN_eq_textOfLines]
  apply scanLines_textOfLines
  · intro l hl
    rcases mem_saveLines ogs l hl with h | ⟨og, hog, h⟩
    · rw [h]
      simp
    · obtain ⟨-, -, hnames, hnl, -, -, -⟩ := hsav og hog
      unfold gameLines at h
      rcases List.mem_append.1 h with h | h
      · obtain ⟨kv, hkv, rfl⟩ := List.mem_map.1 h
        exact tagLine_no_newline_savable kv (hnames kv hkv).1 (hnames kv hkv).2
      · rw [List.mem_singleton.1 h]
        exact hnl
  · intro l hl
    rcases mem_saveLines ogs l hl with h | ⟨og, hog, h⟩
    · rw [h]
      decide
    · obtain ⟨-, -, -, -, -, hshort, hmshort⟩ := hsav og hog
      unfold gameLines at h
      rcases List.mem_append.1 h with h | h
      · obtain ⟨kv, hkv, rfl⟩ := List.mem_map.1 h
        exact hshort kv hkv
      · rw [List.mem_singleton.1 h]
        exact hmshort

theorem ParsePGN_SavePGN_eq (ogs : List (List (Str × Str) × Game))
    (hsav : ∀ og ∈ ogs, SavableGame og)
    (htags : ∀ og ∈ ogs.tail, og.2.Headers ≠ [])
    (hmoves : ∀ og ∈ ogs.dropLast, TrimSpace og.2.Moves ≠ [])
    (hlast : ∀ og, ogs.getLast? = some og →
      TrimSpace og.2.Moves ≠ [] ∨ og.2.Headers ≠ []) :
    ParsePGN (SavePGN ogs) false = ogs.map readBack := by
  have hperm_ne : ∀ og ∈ ogs, og.2.Headers ≠ [] → og.1 ≠ [] := by
    intro og hog h e
    have := (hsav og hog).1
    rw [e] at this
    exact h this.nil_eq.symm
  unfold ParsePGN
  rw [scanLines_SavePGN ogs hsav]
  cases ogs with
  | nil => rfl
  | cons og rest =>
    obtain ⟨-, -, hnames, hnl, hhead, -, -⟩ := hsav og (List.mem_cons_self _ _)
    cases rest with
    | nil =>
      have hl := hlast og rfl
      have hA : og.1 ≠ [] ∨
          (({ games := [], currentGame := newGame } : ParseState).currentGame = newGame ∧
            TrimSpace og.2.Moves ≠ []) := by
        rcases hl with h | h
        · exact Or.inr ⟨rfl, h⟩
        · exact Or.inl (hperm_ne og (List.mem_cons_self _ _) h)
      rw [saveLines, foldl_gameLines og _ hnames hnl hhead (Or.inl rfl) hA]
      unfold finishParse
      have hcond : (readBack og).Moves.length > 0 ∨ (readBack og).Headers.length > 0 := by
        rcases hl with h | h
        · left
          simp [readBack, h]
        · right
          exact List.length_pos.2
            (readBack_headers_ne_nil og (hperm_ne og (List.mem_cons_self _ _) h))
      rw [if_pos hcond]
      simp [finalizeCurrent, newGame]
    | cons og' rest' =>
      have hmv : TrimSpace og.2.Moves ≠ [] := hmoves og (by simp [List.dropLast])
      rw [saveLines, List.map_append, List.map_append, List.foldl_append, List.foldl_append,
        foldl_gameLines og _ hnames hnl hhead (Or.inl rfl) (Or.inr ⟨rfl, hmv⟩)]
      simp only [List.map_cons, List.map_nil, List.foldl_cons, List.foldl_nil]
      rw [parseLine_blank,
        foldl_saveLines (og' :: rest') _ (by simp [readBack, hmv])
          (fun x hx => ⟨hsav x (List.mem_cons_of_mem _ hx),
            hperm_ne x (List.mem_cons_of_mem _ hx) (htags x hx)⟩)
          (fun x hx => hmoves x (by
            rw [List.dropLast_cons₂]
            exact List.mem_cons_of_mem _ hx))]
      simp [finalizeCurrent, newGame]

theorem lastValue_eq_some_iff (o : List (Str × Str)) (k v : Str)
    (hnodup : (o.map Prod.fst).Nodup) : lastValue o k = some v ↔ (k, v) ∈ o := by
  induction o using List.reverseRecOn with
  | nil => simp [lastValue]
  | append_singleton o e ih =>
    obtain ⟨a, b⟩ := e
    rw [List.map_append, List.nodup_append] at hnodup
    obtain ⟨hno, -, hdisj⟩ := hnodup
    have ha : a ∉ o.map Prod.fst := fun h => hdisj h (by simp)
    unfold lastValue at ih ⊢
    rw [List.foldl_append, List.foldl_cons, List.foldl_nil]
    by_cases hak : a = k
    · subst hak
      simp only [if_true, Option.some.injEq, List.mem_append, List.mem_singleton, Prod.mk.injEq,
        true_and]
      constructor
      · intro h
        exact Or.inr h.symm
      · rintro (h | h)
        · exact absurd (List.mem_map.2 ⟨(a, v), h, rfl⟩) ha
        · exact h.symm
    · simp only [if_neg hak, ih hno, List.mem_append, List.mem_singleton, Prod.mk.injEq]
      constructor
      · exact Or.inl
      · rintro (h | h)
        · exact h
        · exact absurd h.1.symm hak

theorem get?_eq_some_iff (m : HeaderMap) (k v : Str) (hnodup : (m.map Prod.fst).Nodup) :
    HeaderMap.get? m k = some v ↔ (k, v) ∈ m := by
  constructor
  · exact mem_of_get?_eq_some m k v
  · intro h
    induction m with
    | nil => simp at h
    | cons e m ih =>
      obtain ⟨a, b⟩ := e
      rw [List.map_cons, List.nodup_cons] at hnodup
      rcases List.mem_cons.1 h with h | h
      · have hab : a = k ∧ b = v := by
          have := Prod.mk.inj h
          exact ⟨this.1.symm, this.2.symm⟩
        simp [HeaderMap.get?, hab.1, hab.2]
      · have hak : ¬ a = k := by
          intro e
          apply hnodup.1
          rw [e]
          exact List.mem_map.2 ⟨(k, v), h, rfl⟩
        simp only [HeaderMap.get?, if_neg hak]
        exact ih hnodup.2 h

theorem get?_readBack (og : List (Str × Str) × Game) (hperm : og.1.Perm og.2.Headers)
    (hnodup : (og.2.Headers.map Prod.fst).Nodup) (k : Str) :
    HeaderMap.get? (readBack og).Headers k = HeaderMap.get? og.2.Headers k := by
  have hnodup' : (og.1.map Prod.fst).Nodup := (hperm.map Prod.fst).nodup_iff.2 hnodup
  have h1 : HeaderMap.get? (readBack og).Headers k = lastValue og.1 k :=
    get?_foldl_set og.1 k []
  rw [h1]
  apply Option.ext
  intro v
  rw [Option.mem_def, Option.mem_def, lastValue_eq_some_iff og.1 k v hnodup',
    get?_eq_some_iff og.2.Headers k v hnodup]
  exact hperm.mem_iff

theorem TrimSpace_readBack (og : List (Str × Str) × Game) :
    TrimSpace (readBack og).Moves = TrimSpace og.2.Moves := by
  unfold readBack
  simp only
  split_ifs with h
  · rw [h]
    rfl
  · rw [TrimSpace_concat_space _ _ (by decide), TrimSpace_idem]

theorem forall₂_map_readBack (ogs : List (List (Str × Str) × Game))
    (hsav : ∀ og ∈ ogs, SavableGame og) :
    List.Forall₂ (fun og r =>
        (∀ k, HeaderMap.get? r.Headers k = HeaderMap.get? og.2.Headers k) ∧
        TrimSpace r.Moves = TrimSpace og.2.Moves)
      ogs (ogs.map readBack) := by
  induction ogs with
  | nil => exact List.Forall₂.nil
  | cons og ogs ih =>
    obtain ⟨hperm, hnodup, -⟩ := hsav og (List.mem_cons_self _ _)
    exact List.Forall₂.cons
      ⟨fun k => get?_readBack og hperm hnodup k, TrimSpace_readBack og⟩
      (ih (fun x hx => hsav x (List.mem_cons_of_mem _ hx)))

/-- C14, counterexample: for the two records `A = x` without movetext and `B = y`
with the move `e4`, `SavePGN` writes the text below, and `ParsePGN` reads one record
from it, with both tags: the sequence parsed back is shorter than the sequence
written. -/
theorem SavePGN_ParsePGN_merges_tag_only_record :
    SavePGN
        [([("A".toList, "x".toList)], { Headers := [("A".toList, "x".toList)], Moves := [] }),
         ([("B".toList, "y".toList)],
           { Headers := [("B".toList, "y".toList)], Moves := "e4".toList })] =
      "[A \"x\"]\n\n\n[B \"y\"]\ne4\n".toList ∧
    ParsePGN "[A \"x\"]\n\n\n[B \"y\"]\ne4\n".toList false =
      [{ Headers := [("A".toList, "x".toList), ("B".toList, "y".toList)],
         Moves := "e4 ".toList }] := by
  decide

/-- C14, amended: let a sequence of records be written as `SavePGN` does, each record
with its tags in any order, and let the text be parsed with `ParsePGN(_, false)`.
Suppose that the tags of each record form a map whose names have no space or newline
and do not begin with a bracket and whose values have no newline and do not begin or
end with a double quote; that the trimmed movetext of each record has no newline and
does not begin with `[`; that every line written is shorter than the `65536` bytes of
the scanner's buffer; that every record but the first has a tag; that every record but
the last has movetext that is not blank; and that the last record has such movetext or
a tag.  Then the parsed sequence has the length of the written one, and its records
have, position by position, the same tags and the same movetext up to surrounding
white space. -/
theorem ParsePGN_SavePGN_round_trip (ogs : List (List (Str × Str) × Game))
    (hsav : ∀ og ∈ ogs, SavableGame og)
    (htags : ∀ og ∈ ogs.tail, og.2.Headers ≠ [])
    (hmoves : ∀ og ∈ ogs.dropLast, TrimSpace og.2.Moves ≠ [])
    (hlast : ∀ og ∈ ogs.getLast?, TrimSpace og.2.Moves ≠ [] ∨ og.2.Headers ≠ []) :
    (ParsePGN (SavePGN ogs) false).length = ogs.length ∧
    List.Forall₂ (fun og r =>
        (∀ k, HeaderMap.get? r.Headers k = HeaderMap.get? og.2.Headers k) ∧
        TrimSpace r.Moves = TrimSpace og.2.Moves)
      ogs (ParsePGN (SavePGN ogs) false) := by
  rw [ParsePGN_SavePGN_eq ogs hsav htags hmoves (fun og h => hlast og h)]
  exact ⟨by simp, forall₂_map_readBack ogs hsav⟩

/-- Witness for C14, amended: the three games of `sampleSaved`. -/
theorem ParsePGN_SavePGN_round_trip_witness :
    (ParsePGN (SavePGN sampleSaved) false).length = sampleSaved.length ∧
    List.Forall₂ (fun og r =>
        (∀ k, HeaderMap.get? r.Headers k = HeaderMap.get? og.2.Headers k) ∧
        TrimSpace r.Moves = TrimSpace og.2.Moves)
      sampleSaved (ParsePGN (SavePGN sampleSaved) false) :=
  ParsePGN_SavePGN_round_trip sampleSaved (by decide) (by decide) (by decide) (by decide)

end PGNOptimizer
